import Mathlib

/-!
# Verification of pdf-translator-rs core against its specification

This development shallowly embeds the core algorithms of the
`pdf-translator-core` crate in Lean 4 and proves (or refutes) the
specification's claims about them.  Rust strings are modelled as
`List Char` (Unicode scalar values), machine integers as `Nat`/`Int`
with explicit `% 2^w` where overflow matters, and `f32` page/layout
arithmetic as exact rational arithmetic over `ℚ`.
-/

namespace PdfTranslator

/-- Rust's `char::is_whitespace` (the Unicode `White_Space` property),
used by `str::trim` and `str::split_whitespace`. -/
def rustIsWhitespace (c : Char) : Bool :=
  let n := c.toNat
  n = 0x20 || (0x9 ≤ n && n ≤ 0xD) || n = 0x85 || n = 0xA0 ||
  n = 0x1680 || (0x2000 ≤ n && n ≤ 0x200A) || n = 0x2028 || n = 0x2029 ||
  n = 0x202F || n = 0x205F || n = 0x3000

/-- Rust `str::trim_start`: drop leading whitespace. -/
def trimStart (s : List Char) : List Char :=
  s.dropWhile rustIsWhitespace

/-- Rust `str::trim_end`: drop trailing whitespace. -/
def trimEnd (s : List Char) : List Char :=
  (s.reverse.dropWhile rustIsWhitespace).reverse

/-- Rust `str::trim`: drop leading and trailing whitespace. -/
def trim (s : List Char) : List Char :=
  trimEnd (trimStart s)

/-- Single-pass accumulator loop for `splitWhitespace`: `acc` holds the
characters of the current word in reverse. -/
def splitWsAux : List Char → List Char → List (List Char)
  | [], acc => if acc = [] then [] else [acc.reverse]
  | c :: cs, acc =>
    if rustIsWhitespace c then
      if acc = [] then splitWsAux cs [] else acc.reverse :: splitWsAux cs []
    else
      splitWsAux cs (c :: acc)

/-- Rust `str::split_whitespace`: split on runs of Unicode whitespace,
never producing empty words. -/
def splitWhitespace (s : List Char) : List (List Char) :=
  splitWsAux s []

-- ============================================================================
-- C9: PageIndex::try_from_page_num  (src/pdf/page_index.rs)
-- ============================================================================

/-- The error type of the core crate, restricted to the variants the embedded
functions construct (`src/error.rs`). -/
inductive Error where
  /-- `Error::PdfInvalidPage { page, total }` -/
  | PdfInvalidPage (page : Nat) (total : Nat)
  /-- `Error::PdfOverlay(String)` -/
  | PdfOverlay (msg : List Char)
  /-- `Error::Lopdf(String)` -/
  | Lopdf (msg : List Char)
  /-- `Error::PdfSave(String)` -/
  | PdfSave (msg : List Char)
  deriving DecidableEq, Repr

/-- `i32::MAX`, the largest page number representable in the `PageIndex`
newtype's underlying `i32`. -/
def i32Max : Nat := 2147483647

/-- `PageIndex::try_from_page_num` (`src/pdf/page_index.rs:62-76`):
reject `page_num >= total_pages`, then reject values that do not fit in
`i32` (`i32::try_from`), otherwise wrap the value.  `usize` is modelled
as `Nat`; the wrapped `i32` is represented by its non-negative value. -/
def PageIndex.try_from_page_num (page_num total_pages : Nat) :
    Except Error Nat :=
  if page_num ≥ total_pages then
    .error (.PdfInvalidPage page_num total_pages)
  else if page_num > i32Max then
    .error (.PdfInvalidPage page_num total_pages)
  else
    .ok page_num

-- ============================================================================
-- C8: OpenAiTranslator::translate  (src/translator/openai.rs:225-237)
-- ============================================================================

/-- `Lang` (`src/config.rs`): a language code, a plain string wrapper.
`Lang::as_str` is the identity on the wrapped string. -/
structure Lang where
  code : List Char
  deriving DecidableEq, Repr

/-- `OpenAiTranslator::translate` (`src/translator/openai.rs:225-237`).
The network call `request_with_retry` is an external effect; it is
abstracted as the function argument `request`, which is invoked exactly
when neither skip condition fires. -/
def OpenAiTranslator.translate
    (request : List Char → Except Error (List Char))
    (text : List Char) (source target : Lang) :
    Except Error (List Char) :=
  if trim text = [] then
    .ok text
  else if source.code = target.code ∧ source.code ≠ "auto".toList then
    .ok text
  else
    request text

-- ============================================================================
-- EmbeddedFont metrics and word_wrap  (src/pdf/font.rs, src/pdf/overlay.rs)
-- ============================================================================

/-- The glyph-metric interface of `EmbeddedFont` (`src/pdf/font.rs`).
`glyphWidthOf c` is `glyph_width(glyph_id(c))`, the advance width of the
glyph for `c` in font units (a `u16`); `unitsPerEm` is the face's
units-per-em.  The parsed TrueType face itself is external data, so the
per-character width table is the parameter of the model. -/
structure EmbeddedFont where
  glyphWidthOf : Char → Nat
  unitsPerEm : Nat
  deriving Inhabited

/-- `EmbeddedFont::string_width` (`src/pdf/font.rs:70-77`): the sum of the
per-character advance widths, scaled by `font_size / units_per_em`.
The `f32` arithmetic is modelled exactly over `ℚ`. -/
def EmbeddedFont.string_width (f : EmbeddedFont) (text : List Char)
    (font_size : ℚ) : ℚ :=
  ((text.map fun c => (f.glyphWidthOf c : ℚ)).sum) * font_size
    / (f.unitsPerEm : ℚ)

/-- The character-level breaking loop inside `word_wrap`
(`src/pdf/overlay.rs:519-530`): walk the characters of an overlong word,
starting a new chunk whenever appending the next character would exceed
`max_width` and the current chunk is nonempty.  State: finished lines,
current chunk, current chunk width. -/
def breakChars (font : EmbeddedFont) (font_size max_width : ℚ) :
    List Char → List (List Char) → List Char → ℚ →
    List (List Char) × List Char × ℚ
  | [], lines, chunk, chunk_width => (lines, chunk, chunk_width)
  | c :: cs, lines, chunk, chunk_width =>
    let char_width := font.string_width [c] font_size
    if chunk_width + char_width > max_width ∧ chunk ≠ [] then
      breakChars font font_size max_width cs (lines ++ [chunk]) [c] char_width
    else
      breakChars font font_size max_width cs lines (chunk ++ [c])
        (chunk_width + char_width)

/-- The word-level loop of `word_wrap` (`src/pdf/overlay.rs:511-548`).
State: finished lines, current line, current line width. -/
def wrapLoop (font : EmbeddedFont) (font_size max_width space_width : ℚ) :
    List (List Char) → List (List Char) → List Char → ℚ →
    List (List Char) × List Char
  | [], lines, current, _ => (lines, current)
  | w :: ws, lines, current, current_width =>
    let word_width := font.string_width w font_size
    if word_width > max_width then
      let lines1 := if current ≠ [] then lines ++ [current] else lines
      let r := breakChars font font_size max_width w lines1 [] 0
      wrapLoop font font_size max_width space_width ws r.1 r.2.1 r.2.2
    else if current = [] then
      wrapLoop font font_size max_width space_width ws lines w word_width
    else if current_width + space_width + word_width ≤ max_width then
      wrapLoop font font_size max_width space_width ws lines
        (current ++ ' ' :: w) (current_width + space_width + word_width)
    else
      wrapLoop font font_size max_width space_width ws (lines ++ [current])
        w word_width

/-- `word_wrap` (`src/pdf/overlay.rs:505-559`): greedy word wrap using
glyph-metric widths; overlong words are broken at character boundaries;
the empty result is replaced by a single empty line. -/
def word_wrap (text : List Char) (max_width : ℚ) (font : EmbeddedFont)
    (font_size : ℚ) : List (List Char) :=
  let space_width := font.string_width [' '] font_size
  let r := wrapLoop font font_size max_width space_width
    (splitWhitespace text) [] [] 0
  let lines := if r.2 ≠ [] then r.1 ++ [r.2] else r.1
  if lines = [] then [[]] else lines

/-- Joining a list of lines with single spaces (`Vec::join(" ")`). -/
def joinSp : List (List Char) → List Char
  | [] => []
  | [x] => x
  | x :: xs => x ++ ' ' :: joinSp xs

/-- The width discipline of a produced line: either it fits within
`max_width`, or it is a single character whose own width already exceeds
`max_width`. -/
def LineOk (font : EmbeddedFont) (font_size max_width : ℚ)
    (l : List Char) : Prop :=
  font.string_width l font_size ≤ max_width
    ∨ ∃ c, l = [c] ∧ max_width < font.string_width [c] font_size

/-- The characters contributed by the remaining words when all lines are
joined with single spaces: a space before each word. -/
def tailWords : List (List Char) → List Char
  | [] => []
  | w :: ws => ' ' :: w ++ tailWords ws

-- ============================================================================
-- Overlay layout: RenderBlock, from_overlay, overlap adjustment
-- (src/pdf/overlay.rs)
-- ============================================================================

/-- `BoundingBox` (`src/pdf/text.rs`): a rectangle in MuPDF top-left-origin
coordinates.  `f32` coordinates are modelled exactly over `ℚ`. -/
structure BoundingBox where
  x0 : ℚ
  y0 : ℚ
  x1 : ℚ
  y1 : ℚ
  deriving DecidableEq, Repr

/-- `BoundingBox::width` -/
def BoundingBox.width (b : BoundingBox) : ℚ := b.x1 - b.x0

/-- `BoundingBox::height` -/
def BoundingBox.height (b : BoundingBox) : ℚ := b.y1 - b.y0

/-- `TranslationOverlay` (`src/pdf/overlay.rs:74-83`). -/
structure TranslationOverlay where
  bbox : BoundingBox
  original : List Char
  translated : List Char
  font_size : ℚ
  deriving Repr

/-- Layout constants (`src/pdf/overlay.rs:39-48,170-174`). -/
def LINE_HEIGHT_FACTOR : ℚ := 5 / 4
def RECT_LEFT_PADDING : ℚ := 5
def RECT_RIGHT_PADDING : ℚ := 10
def RECT_TOP_PADDING : ℚ := 3
def RECT_BOTTOM_PADDING : ℚ := 3
def PAGE_RIGHT_MARGIN : ℚ := 40
def MIN_BLOCK_GAP : ℚ := 8
def X_ALIGNMENT_TOLERANCE : ℚ := 40

/-- `RenderBlock` (`src/pdf/overlay.rs:90-103`). -/
structure RenderBlock where
  rect_x : ℚ
  rect_y : ℚ
  rect_width : ℚ
  rect_height : ℚ
  text_x : ℚ
  text_start_y : ℚ
  font_size : ℚ
  line_height : ℚ
  lines : List (List Char)
  deriving Repr

/-- `RenderBlock::from_overlay` (`src/pdf/overlay.rs:107-155`). -/
def RenderBlock.from_overlay (overlay : TranslationOverlay)
    (page_height page_width font_size : ℚ) (font : EmbeddedFont) :
    RenderBlock :=
  let x := overlay.bbox.x0
  let top_y := page_height - overlay.bbox.y0
  let original_width := overlay.bbox.x1 - overlay.bbox.x0
  let original_height := overlay.bbox.y1 - overlay.bbox.y0
  let max_width := max (page_width - x - PAGE_RIGHT_MARGIN) 100
  let lines := word_wrap overlay.translated max_width font font_size
  let line_height := font_size * LINE_HEIGHT_FACTOR
  let text_height := (lines.length : ℚ) * line_height
  let rendered_width :=
    (lines.map fun l => font.string_width l font_size).foldl max 0
  let rect_width := max original_width rendered_width
    + RECT_LEFT_PADDING + RECT_RIGHT_PADDING
  let rect_height := max original_height text_height
    + RECT_TOP_PADDING + RECT_BOTTOM_PADDING
  let rect_x := max (x - RECT_LEFT_PADDING) 0
  let rect_y := top_y - rect_height + RECT_TOP_PADDING
  let text_start_y := top_y - RECT_TOP_PADDING - font_size
  { rect_x := rect_x
    rect_y := rect_y
    rect_width := min rect_width (page_width - rect_x)
    rect_height := rect_height
    text_x := x
    text_start_y := text_start_y
    font_size := font_size
    line_height := line_height
    lines := lines }

/-- `RenderBlock::text_bottom_y` (`src/pdf/overlay.rs:162-167`):
`text_start_y - lines.len().max(1) * line_height`. -/
def RenderBlock.text_bottom_y (b : RenderBlock) : ℚ :=
  b.text_start_y - (b.lines.length.max 1 : ℚ) * b.line_height

/-- First pass of `adjust_blocks_to_prevent_overlap`
(`src/pdf/overlay.rs:194-206`): align X positions of blocks belonging to
the same paragraph, tracking the running paragraph X. -/
def alignXPass : ℚ → List RenderBlock → List RenderBlock
  | _, [] => []
  | paragraph_x, b :: bs =>
    if |b.text_x - paragraph_x| < X_ALIGNMENT_TOLERANCE then
      { b with text_x := paragraph_x } :: alignXPass paragraph_x bs
    else
      b :: alignXPass b.text_x bs

/-- Second pass of `adjust_blocks_to_prevent_overlap`
(`src/pdf/overlay.rs:208-221`): shift blocks down so each keeps at least
`MIN_BLOCK_GAP` below the running floor (the minimum bottom seen so
far). -/
def shiftPass : ℚ → List RenderBlock → List RenderBlock
  | _, [] => []
  | floor_y, b :: bs =>
    let b' :=
      if b.text_start_y > floor_y - MIN_BLOCK_GAP then
        let shift := b.text_start_y - (floor_y - MIN_BLOCK_GAP)
        { b with
          text_start_y := b.text_start_y - shift
          rect_y := b.rect_y - shift
          rect_height := b.rect_height + shift }
      else b
    b' :: shiftPass (min floor_y b'.text_bottom_y) bs

/-- `adjust_blocks_to_prevent_overlap` (`src/pdf/overlay.rs:182-221`):
sort by descending `text_start_y` (stably, as Rust `sort_by` does), align
X positions, then prevent vertical overlap. -/
def adjust_blocks_to_prevent_overlap (blocks : List RenderBlock) :
    List RenderBlock :=
  if blocks.length < 2 then blocks
  else
    match blocks.mergeSort
        (fun a b => decide (b.text_start_y ≤ a.text_start_y)) with
    | [] => []
    | b0 :: rest =>
      b0 :: shiftPass b0.text_bottom_y (alignXPass b0.text_x rest)

-- ============================================================================
-- Text extraction: TextBlock and merge_hyphenated_blocks  (src/pdf/text.rs)
-- ============================================================================

/-- Rust `char::is_lowercase` (the Unicode `Lowercase` property),
restricted to the Basic Latin and Latin-1 Supplement ranges; all other
characters are treated as non-lowercase.  The merge predicate below is
parametric in this set, and every concrete input used in the theorems
stays within Latin-1, where this model agrees with Rust. -/
def rustIsLowercase (c : Char) : Bool :=
  let n := c.toNat
  (0x61 ≤ n && n ≤ 0x7A) || n = 0xB5 ||
  (0xDF ≤ n && n ≤ 0xF6) || (0xF8 ≤ n && n ≤ 0xFF)

/-- The UTF-8 byte size of one character, as Rust `char::len_utf8`. -/
def charUtf8Size (c : Char) : Nat :=
  if c.toNat < 0x80 then 1
  else if c.toNat < 0x800 then 2
  else if c.toNat < 0x10000 then 3
  else 4

/-- Rust `str::len`: the UTF-8 byte length of a string. -/
def utf8Len (s : List Char) : Nat :=
  (s.map charUtf8Size).sum

/-- `TextBlock` (`src/pdf/text.rs:9-18`). -/
structure TextBlock where
  text : List Char
  bbox : BoundingBox
  font_size : ℚ
  line_count : Nat
  deriving DecidableEq, Repr

/-- The merge test of `TextExtractor::merge_hyphenated_blocks`
(`src/pdf/text.rs:233-254`): current block ends in a hyphen (after
trimming trailing whitespace), the next block starts with a lowercase
character or is a short spaceless fragment (fewer than 20 UTF-8 bytes),
and the two blocks are vertically close (gap below 3x their average
height). -/
def should_merge (current next : TextBlock) : Bool :=
  let current_trimmed := trimEnd current.text
  let current_ends_hyphen := decide (current_trimmed.getLast? = some '-')
  let next_trimmed := trimStart next.text
  let next_starts_lower := (next_trimmed.head?.map rustIsLowercase).getD false
  let next_is_fragment :=
    decide (utf8Len next_trimmed < 20) && !(next_trimmed.contains ' ')
  let vertical_gap := |next.bbox.y0 - current.bbox.y1|
  let avg_height := (current.bbox.height + next.bbox.height) / 2
  let close_vertically := decide (vertical_gap < avg_height * 3)
  current_ends_hyphen && (next_starts_lower || next_is_fragment)
    && close_vertically

/-- The merge action of `TextExtractor::merge_hyphenated_blocks`
(`src/pdf/text.rs:256-273`): drop the trailing hyphen, concatenate
without a space, take the union of the bounding boxes, sum the line
counts and keep the smaller font size. -/
def mergeTwo (current next : TextBlock) : TextBlock :=
  let trimmed := trimEnd current.text
  let without_hyphen :=
    if trimmed.getLast? = some '-' then trimmed.dropLast else trimmed
  { text := without_hyphen ++ trimStart next.text
    bbox := ⟨min current.bbox.x0 next.bbox.x0,
             min current.bbox.y0 next.bbox.y0,
             max current.bbox.x1 next.bbox.x1,
             max current.bbox.y1 next.bbox.y1⟩
    font_size := min current.font_size next.font_size
    line_count := current.line_count + next.line_count }

/-- The merging loop of `TextExtractor::merge_hyphenated_blocks`
(`src/pdf/text.rs:226-282`): keep merging the next block into the current
one while the test passes, then emit the current block and continue. -/
def mergeLoop : TextBlock → List TextBlock → List TextBlock
  | current, [] => [current]
  | current, next :: rest =>
    if should_merge current next then
      mergeLoop (mergeTwo current next) rest
    else
      current :: mergeLoop next rest

/-- `TextExtractor::merge_hyphenated_blocks` (`src/pdf/text.rs:214-285`):
sort blocks by ascending top coordinate (stably, as Rust `sort_by`
does), then run the merging loop. -/
def merge_hyphenated_blocks (blocks : List TextBlock) : List TextBlock :=
  if blocks.length < 2 then blocks
  else
    match blocks.mergeSort
        (fun a b => decide (a.bbox.y0 ≤ b.bbox.y0)) with
    | [] => []
    | b :: rest => mergeLoop b rest

/-- The pairwise merge condition as the (amended) claim states it:
trailing hyphen on the first block's trimmed text; the second block's
trimmed text starts with a lowercase character or is a spaceless token
shorter than 20 UTF-8 bytes; vertical gap below 3 times the average of
the two blocks' heights. -/
def claimHyphenMergeCond (b1 b2 : TextBlock) : Prop :=
  (trimEnd b1.text).getLast? = some '-'
  ∧ (((trimStart b2.text).head?.map rustIsLowercase).getD false = true
      ∨ (utf8Len (trimStart b2.text) < 20
          ∧ (trimStart b2.text).contains ' ' = false))
  ∧ |b2.bbox.y0 - b1.bbox.y1| < (b1.bbox.height + b2.bbox.height) / 2 * 3

instance (b1 b2 : TextBlock) : Decidable (claimHyphenMergeCond b1 b2) := by
  unfold claimHyphenMergeCond
  infer_instance

/-- The merged block as the claim states it: concatenation with the
hyphen dropped and no space inserted, union bounding box, summed line
count, smaller font size. -/
def claimHyphenMerged (b1 b2 : TextBlock) : TextBlock :=
  { text := (trimEnd b1.text).dropLast ++ trimStart b2.text
    bbox := ⟨min b1.bbox.x0 b2.bbox.x0, min b1.bbox.y0 b2.bbox.y0,
             max b1.bbox.x1 b2.bbox.x1, max b1.bbox.y1 b2.bbox.y1⟩
    font_size := min b1.font_size b2.font_size
    line_count := b1.line_count + b2.line_count }

-- ============================================================================
-- lopdf object-graph substrate model  (external collaborator)
-- ============================================================================

/-- The lopdf object model (external PDF object-graph substrate).
`ObjectId` generation numbers are always 0 in the code paths embedded
here, so object ids are modelled as plain `Nat`.  Dictionary keys are
byte strings, modelled as `List Char`; dictionaries preserve insertion
order as lopdf's do. -/
inductive Object where
  | Null
  | Boolean (b : Bool)
  | Integer (i : Int)
  | Real (r : ℚ)
  | Name (n : List Char)
  | String (s : List Char)
  | Array (els : List Object)
  | Dictionary (d : List (List Char × Object))
  | Stream (dict : List (List Char × Object)) (data : List Nat)
  | Reference (id : Nat)
  deriving Repr

/-- `lopdf::Dictionary::get`: first binding for a key. -/
def dictGet (d : List (List Char × Object)) (k : List Char) :
    Option Object :=
  (d.find? fun p => p.1 = k).map (·.2)

/-- `lopdf::Dictionary::set`: replace the binding if the key is present,
else append. -/
def dictSet (d : List (List Char × Object)) (k : List Char)
    (v : Object) : List (List Char × Object) :=
  if (d.find? fun p => p.1 = k).isSome then
    d.map fun p => if p.1 = k then (k, v) else p
  else
    d ++ [(k, v)]

/-- A loaded `lopdf::Document`: the object map (kept sorted by id, as
lopdf's BTreeMap iterates), the trailer dictionary, and the running
maximum object id. -/
structure Doc where
  objects : List (Nat × Object)
  trailer : List (List Char × Object)
  max_id : Nat
  deriving Repr

/-- `lopdf::Document::get_object`. -/
def Doc.get_object (doc : Doc) (id : Nat) : Option Object :=
  (doc.objects.find? fun p => p.1 = id).map (·.2)

-- ============================================================================
-- C10: get_media_box_recursive  (src/pdf/overlay.rs:409-460)
-- ============================================================================

/-- The US Letter default media box `[0.0, 0.0, 612.0, 792.0]`. -/
def usLetterBox : ℚ × ℚ × ℚ × ℚ := (0, 0, 612, 792)

/-- The numeric conversion of one media-box entry
(`src/pdf/overlay.rs:436-443`): integers are cast to `f32`, reals kept,
everything else dropped by `filter_map`. -/
def mediaBoxNum : Object → Option ℚ
  | .Integer i => some (i : ℚ)
  | .Real r => some r
  | _ => none

/-- The `MediaBox` entry of a page dictionary resolved one level of
indirection deep (`src/pdf/overlay.rs:419-431`): an inline array is used
directly, a reference is looked up and must resolve to an array,
anything else is malformed. -/
def mediaBoxArr (doc : Doc) (dict : List (List Char × Object)) :
    Option (List Object) :=
  match dictGet dict "MediaBox".toList with
  | some (.Array arr) => some arr
  | some (.Reference ref_id) =>
    match doc.get_object ref_id with
    | some (.Array arr) => some arr
    | _ => none
  | _ => none

/-- The well-formed media box carried by a page dictionary itself, if any
(`src/pdf/overlay.rs:433-449`): the resolved `MediaBox` array must have
exactly 4 entries, all numeric. -/
def foundBox (doc : Doc) (dict : List (List Char × Object)) :
    Option (ℚ × ℚ × ℚ × ℚ) :=
  match mediaBoxArr doc dict with
  | some arr =>
    if arr.length = 4 then
      match arr.filterMap mediaBoxNum with
      | [v0, v1, v2, v3] => some (v0, v1, v2, v3)
      | _ => none
    else none
  | none => none

/-- The resolved `Parent` of a page dictionary
(`src/pdf/overlay.rs:452-455`): the `Parent` entry must be a reference
that resolves. -/
def parentObj (doc : Doc) (dict : List (List Char × Object)) :
    Option Object :=
  match dictGet dict "Parent".toList with
  | some (.Reference parent_id) => doc.get_object parent_id
  | _ => none

/-- `get_media_box_recursive` (`src/pdf/overlay.rs:413-460`): return the
object's own well-formed `MediaBox` if present, otherwise recurse into
the resolved `Parent` with a decreasing depth budget; in every other
case (budget exhausted, non-dictionary object, missing or malformed
entries) return the US Letter default. -/
def get_media_box_recursive (doc : Doc) :
    Object → Nat → Except Error (ℚ × ℚ × ℚ × ℚ)
  | _, 0 => .ok usLetterBox
  | .Dictionary dict, depth + 1 =>
    match foundBox doc dict with
    | some b => .ok b
    | none =>
      match parentObj doc dict with
      | some parent => get_media_box_recursive doc parent depth
      | none => .ok usLetterBox
  | _, _ + 1 => .ok usLetterBox

/-- `get_media_box` (`src/pdf/overlay.rs:409-411`): entry point with
depth 10. -/
def get_media_box (doc : Doc) (page_obj : Object) :
    Except Error (ℚ × ℚ × ℚ × ℚ) :=
  get_media_box_recursive doc page_obj 10

/-- The search described by the claim: the well-formed `MediaBox` found
on the page object or by following up to `depth` Parent links, if any. -/
def mediaBoxSearch (doc : Doc) : Object → Nat → Option (ℚ × ℚ × ℚ × ℚ)
  | _, 0 => none
  | .Dictionary dict, depth + 1 =>
    match foundBox doc dict with
    | some b => some b
    | none =>
      match parentObj doc dict with
      | some parent => mediaBoxSearch doc parent depth
      | none => none
  | _, _ + 1 => none

-- ============================================================================
-- C2: combine_pdfs  (src/pdf/overlay.rs:566-656)
-- ============================================================================

mutual
/-- Reference rewriting under an id map, as lopdf's renumbering does:
references are mapped, containers are rewritten recursively, everything
else is untouched. -/
def renumberObj (f : Nat → Nat) : Object → Object
  | .Reference id => .Reference (f id)
  | .Array els => .Array (renumberObjList f els)
  | .Dictionary d => .Dictionary (renumberDict f d)
  | .Stream d data => .Stream (renumberDict f d) data
  | o => o

def renumberObjList (f : Nat → Nat) : List Object → List Object
  | [] => []
  | o :: os => renumberObj f o :: renumberObjList f os

def renumberDict (f : Nat → Nat) :
    List (List Char × Object) → List (List Char × Object)
  | [] => []
  | (k, v) :: rest => (k, renumberObj f v) :: renumberDict f rest
end

/-- The replace map built by `lopdf::Document::renumber_objects_with`:
the ids present in the document, in ascending order, are mapped to
consecutive ids from `starting_id`; other ids are left unchanged. -/
def renumMap : List Nat → Nat → Nat → Nat
  | [], _, q => q
  | k :: ks, start, q =>
    if q = k then start else renumMap ks (start + 1) q

/-- `lopdf::Document::renumber_objects_with(starting_id)`: renumber all
object ids consecutively from `starting_id` (in ascending id order),
rewrite every reference through the replace map, and set `max_id` to the
largest id assigned. -/
def Doc.renumber_objects_with (doc : Doc) (starting_id : Nat) : Doc :=
  let keys := doc.objects.map (·.1)
  let f := renumMap keys starting_id
  { objects := doc.objects.map fun p => (f p.1, renumberObj f p.2)
    trailer := renumberDict f doc.trailer
    max_id := starting_id + keys.length - 1 }

/-- `lopdf::Object::type_name`: the `Type` name of a dictionary or
stream object. -/
def Object.type_name : Object → Option (List Char)
  | .Dictionary d =>
    match dictGet d "Type".toList with
    | some (.Name n) => some n
    | _ => none
  | .Stream d _ =>
    match dictGet d "Type".toList with
    | some (.Name n) => some n
    | _ => none
  | _ => none

/-- The structural object types discarded by `combine_pdfs`
(`src/pdf/overlay.rs:597-598`): Catalog, Pages, Page and the Outline
family are rebuilt, everything else is copied. -/
def isStructuralType (t : Option (List Char)) : Bool :=
  let n := t.getD []
  n = "Catalog".toList || n = "Pages".toList || n = "Page".toList ||
  n = "Outlines".toList || n = "Outline".toList

/-- BTreeMap insertion into an id-sorted association list: replaces an
existing binding, otherwise inserts in order. -/
def insertSorted (id : Nat) (obj : Object) :
    List (Nat × Object) → List (Nat × Object)
  | [] => [(id, obj)]
  | (i, o) :: rest =>
    if id < i then (id, obj) :: (i, o) :: rest
    else if id = i then (id, obj) :: rest
    else (i, o) :: insertSorted id obj rest

/-- The root `Pages` node referenced from the trailer's catalog, as
`lopdf::Document::get_pages` starts from. -/
def pagesRoot (doc : Doc) : Option Nat :=
  match dictGet doc.trailer "Root".toList with
  | some (.Reference cat_id) =>
    match doc.get_object cat_id with
    | some (.Dictionary cat) =>
      match dictGet cat "Pages".toList with
      | some (.Reference pages_id) => some pages_id
      | _ => none
    | _ => none
  | _ => none

/-- The object id carried by a reference object, if any. -/
def refId : Object → Option Nat
  | .Reference id => some id
  | _ => none

/-- The page-tree walk of `lopdf::Document::get_pages`: leaf `Page`
nodes are collected in kid order, `Pages` nodes are descended into, with
a fuel bound standing for the traversal budget. -/
def collectPageIds (doc : Doc) : Nat → Nat → List Nat
  | 0, _ => []
  | fuel + 1, id =>
    match doc.get_object id with
    | some (.Dictionary d) =>
      match dictGet d "Type".toList with
      | some (.Name ty) =>
        if ty = "Page".toList then [id]
        else if ty = "Pages".toList then
          match dictGet d "Kids".toList with
          | some (.Array kids) =>
            (kids.filterMap refId).flatMap (collectPageIds doc fuel)
          | _ => []
        else []
      | _ => []
    | _ => []

/-- `lopdf::Document::get_pages`, reduced to the ordered list of page
object ids (the values of the returned page-number map, in page order). -/
def Doc.get_pages_ids (doc : Doc) : List Nat :=
  match pagesRoot doc with
  | some pages_id => collectPageIds doc (doc.objects.length + 1) pages_id
  | none => []

mutual
/-- Every reference inside the object points at an id in `keys`. -/
def refsClosedObj (keys : List Nat) : Object → Bool
  | .Reference id => decide (id ∈ keys)
  | .Array els => refsClosedList keys els
  | .Dictionary d => refsClosedDict keys d
  | .Stream d _ => refsClosedDict keys d
  | _ => true

def refsClosedList (keys : List Nat) : List Object → Bool
  | [] => true
  | o :: os => refsClosedObj keys o && refsClosedList keys os

def refsClosedDict (keys : List Nat) :
    List (List Char × Object) → Bool
  | [] => true
  | (_, v) :: rest => refsClosedObj keys v && refsClosedDict keys rest
end

/-- Well-formedness of a loaded document, as lopdf's `BTreeMap` storage
guarantees and real PDFs satisfy: object ids strictly ascending, and all
references (in objects and trailer) resolving to present ids. -/
def Doc.wf (doc : Doc) : Prop :=
  List.Pairwise (· < ·) (doc.objects.map (·.1))
  ∧ (∀ p ∈ doc.objects, refsClosedObj (doc.objects.map (·.1)) p.2 = true)
  ∧ refsClosedDict (doc.objects.map (·.1)) doc.trailer = true

/-- One step of the merge loop of `combine_pdfs`
(`src/pdf/overlay.rs:582-604`): renumber the loaded document above the
running maximum id, collect its page objects into `documents_pages` and
its non-structural objects into `documents_objects`. -/
def mergeStep (acc : Nat × List (Nat × Object) × List (Nat × Object))
    (doc : Doc) : Nat × List (Nat × Object) × List (Nat × Object) :=
  let d := doc.renumber_objects_with acc.1
  let dpages := (d.get_pages_ids.filterMap fun pid =>
      (d.get_object pid).map fun o => (pid, o)).foldl
    (fun m p => insertSorted p.1 p.2 m) acc.2.1
  let dobjects := d.objects.foldl
    (fun m p =>
      if isStructuralType p.2.type_name then m
      else insertSorted p.1 p.2 m)
    acc.2.2
  (d.max_id + 1, dpages, dobjects)

/-- The renumbered page ids contributed by the documents starting from a
given id budget, concatenated per document in input order. -/
def pageIdsFrom : List Doc → Nat → List Nat
  | [], _ => []
  | d :: ds, start =>
    let d' := d.renumber_objects_with start
    d'.get_pages_ids ++ pageIdsFrom ds (d'.max_id + 1)

/-- The renumbered page ids contributed by each input document, in input
order: the id ranges assigned by the merge loop are increasing across
documents, so this concatenation is the claim's "pages in input order". -/
def mergedPageIds (docs : List Doc) : List Nat :=
  pageIdsFrom docs 1

/-- `lopdf::Document::compress`: compresses stream contents; the object
graph structure and ids are unchanged, so it is modelled as the
identity. -/
def Doc.compress (doc : Doc) : Doc := doc

/-- Re-parenting of the collected page objects
(`src/pdf/overlay.rs:612-617`): every collected page dictionary gets its
`Parent` entry pointed at the new `Pages` node (object id 1, the first
id `new_object_id` hands out on the fresh merged document) and is
inserted into the merged object map. -/
def reparentPages (dpages dobjects : List (Nat × Object)) :
    List (Nat × Object) :=
  dpages.foldl
    (fun m p =>
      match p.2 with
      | .Dictionary d =>
        insertSorted p.1
          (.Dictionary (dictSet d "Parent".toList (.Reference 1))) m
      | _ => m)
    dobjects

/-- The rebuilt `Pages` node (`src/pdf/overlay.rs:620-632`): kids are the
collected page ids in ascending (input) order, count is their number. -/
def newPagesDict (dpages : List (Nat × Object)) : Object :=
  .Dictionary
    [("Type".toList, .Name "Pages".toList),
     ("Kids".toList, .Array (dpages.map fun p => Object.Reference p.1)),
     ("Count".toList, .Integer (dpages.length : Int))]

/-- The rebuilt catalog (`src/pdf/overlay.rs:635-640`), pointing at the
new `Pages` node at object id 1; the catalog itself gets object id 2
(the second id `new_object_id` hands out). -/
def newCatalog : Object :=
  .Dictionary
    [("Type".toList, .Name "Catalog".toList),
     ("Pages".toList, .Reference 1)]

/-- The merge of `combine_pdfs` for two or more loaded documents
(`src/pdf/overlay.rs:577-649`), starting after loading: fold the
documents through `mergeStep`, copy the collected objects into a fresh
document, re-parent every collected page under the new `Pages` node at
id 1, add the new catalog at id 2, point the trailer's `Root` at it, set
`max_id` to the object count, renumber the whole document from 1 and
compress it. -/
def combineDocs (docs : List Doc) : Doc :=
  let st := docs.foldl mergeStep (1, [], [])
  let objects4 := insertSorted 2 newCatalog
    (insertSorted 1 (newPagesDict st.2.1) (reparentPages st.2.1 st.2.2))
  let d0 : Doc :=
    { objects := objects4
      trailer := [("Root".toList, .Reference 2)]
      max_id := objects4.length }
  (d0.renumber_objects_with 1).compress

/-- A minimal well-formed single-page document: catalog at id 1, page
tree at id 2, page at id 3.  Used to instantiate the combine theorem. -/
def samplePageDoc : Doc :=
  { objects :=
      [(1, .Dictionary
          [("Type".toList, .Name "Catalog".toList),
           ("Pages".toList, .Reference 2)]),
       (2, .Dictionary
          [("Type".toList, .Name "Pages".toList),
           ("Kids".toList, .Array [.Reference 3]),
           ("Count".toList, .Integer 1)]),
       (3, .Dictionary
          [("Type".toList, .Name "Page".toList),
           ("Parent".toList, .Reference 2)])]
    trailer := [("Root".toList, .Reference 1)]
    max_id := 3 }

/-- `combine_pdfs` (`src/pdf/overlay.rs:566-656`).  Byte buffers are
`List Nat`; loading (`Document::load_mem` plus the error wrapping) and
serialization (`Document::save_to`) belong to the external lopdf
substrate and are abstracted as the `load` and `save` arguments. -/
def combine_pdfs (load : List Nat → Except Error Doc)
    (save : Doc → Except Error (List Nat))
    (pages : List (List Nat)) : Except Error (List Nat) :=
  match pages with
  | [] => .error (.PdfOverlay "No pages to combine".toList)
  | [single] => .ok single
  | _ =>
    match pages.mapM load with
    | .error e => .error e
    | .ok docs => save (combineDocs docs)

-- ============================================================================
-- C1: CacheKey::new  (src/cache/key.rs:15-43) and the md5 crate
-- ============================================================================

/-- The 64 additive round constants of MD5 (RFC 1321), as baked into the
`md5` crate used by `md5::compute`. -/
def md5K : List Nat :=
  [0xd76aa478, 0xe8c7b756, 0x242070db, 0xc1bdceee,
   0xf57c0faf, 0x4787c62a, 0xa8304613, 0xfd469501,
   0x698098d8, 0x8b44f7af, 0xffff5bb1, 0x895cd7be,
   0x6b901122, 0xfd987193, 0xa679438e, 0x49b40821,
   0xf61e2562, 0xc040b340, 0x265e5a51, 0xe9b6c7aa,
   0xd62f105d, 0x02441453, 0xd8a1e681, 0xe7d3fbc8,
   0x21e1cde6, 0xc33707d6, 0xf4d50d87, 0x455a14ed,
   0xa9e3e905, 0xfcefa3f8, 0x676f02d9, 0x8d2a4c8a,
   0xfffa3942, 0x8771f681, 0x6d9d6122, 0xfde5380c,
   0xa4beea44, 0x4bdecfa9, 0xf6bb4b60, 0xbebfbc70,
   0x289b7ec6, 0xeaa127fa, 0xd4ef3085, 0x04881d05,
   0xd9d4d039, 0xe6db99e5, 0x1fa27cf8, 0xc4ac5665,
   0xf4292244, 0x432aff97, 0xab9423a7, 0xfc93a039,
   0x655b59c3, 0x8f0ccc92, 0xffeff47d, 0x85845dd1,
   0x6fa87e4f, 0xfe2ce6e0, 0xa3014314, 0x4e0811a1,
   0xf7537e82, 0xbd3af235, 0x2ad7d2bb, 0xeb86d391]

/-- Per-round left-rotation amounts of MD5 (RFC 1321). -/
def md5S : List Nat :=
  [7, 12, 17, 22, 7, 12, 17, 22, 7, 12, 17, 22, 7, 12, 17, 22,
   5, 9, 14, 20, 5, 9, 14, 20, 5, 9, 14, 20, 5, 9, 14, 20,
   4, 11, 16, 23, 4, 11, 16, 23, 4, 11, 16, 23, 4, 11, 16, 23,
   6, 10, 15, 21, 6, 10, 15, 21, 6, 10, 15, 21, 6, 10, 15, 21]

/-- Left rotation of a 32-bit word held in a `Nat` (operand reduced
modulo `2^32`). -/
def rotl32 (x s : Nat) : Nat :=
  ((x * 2 ^ s) % 4294967296) ||| (x % 4294967296 / 2 ^ (32 - s))

/-- The four MD5 bitwise round functions F, G, H, I selected by round
index; 32-bit complement is xor with `0xffffffff`. -/
def md5F (i b c d : Nat) : Nat :=
  if i < 16 then (b &&& c) ||| ((4294967295 ^^^ b) &&& d)
  else if i < 32 then (d &&& b) ||| ((4294967295 ^^^ d) &&& c)
  else if i < 48 then b ^^^ c ^^^ d
  else c ^^^ (b ||| (4294967295 ^^^ d))

/-- The MD5 message-word schedule: which of the 16 words round `i`
reads. -/
def md5G (i : Nat) : Nat :=
  if i < 16 then i
  else if i < 32 then (5 * i + 1) % 16
  else if i < 48 then (3 * i + 5) % 16
  else (7 * i) % 16

/-- One MD5 round on the state `(a, b, c, d)`. -/
def md5Step (M : List Nat) (st : Nat × Nat × Nat × Nat) (i : Nat) :
    Nat × Nat × Nat × Nat :=
  let f := (md5F i st.2.1 st.2.2.1 st.2.2.2 + st.1 + md5K.getD i 0
    + M.getD (md5G i) 0) % 4294967296
  (st.2.2.2, (st.2.1 + rotl32 f (md5S.getD i 0)) % 4294967296,
    st.2.1, st.2.2.1)

/-- Parse a byte list into little-endian 32-bit words. -/
def bytesToWords : List Nat → List Nat
  | b0 :: b1 :: b2 :: b3 :: rest =>
    (b0 + 256 * b1 + 65536 * b2 + 16777216 * b3) :: bytesToWords rest
  | _ => []

/-- Process one 64-byte block: 64 rounds, then add the block result to
the incoming state, all modulo `2^32`. -/
def md5Block (st : Nat × Nat × Nat × Nat) (block : List Nat) :
    Nat × Nat × Nat × Nat :=
  let M := bytesToWords block
  let r := (List.range 64).foldl (md5Step M) st
  ((st.1 + r.1) % 4294967296, (st.2.1 + r.2.1) % 4294967296,
    (st.2.2.1 + r.2.2.1) % 4294967296, (st.2.2.2 + r.2.2.2) % 4294967296)

/-- The four little-endian bytes of a 32-bit word. -/
def le4 (v : Nat) : List Nat :=
  [v % 256, v / 256 % 256, v / 65536 % 256, v / 16777216 % 256]

/-- MD5 padding: append `0x80`, zero-fill to 56 mod 64, then the
original bit length as a 64-bit little-endian quantity. -/
def md5Pad (msg : List Nat) : List Nat :=
  msg ++ 128 :: List.replicate ((119 - msg.length % 64) % 64) 0
    ++ le4 (msg.length * 8 % 4294967296)
    ++ le4 (msg.length * 8 / 4294967296 % 4294967296)

/-- Fold `md5Block` over the 64-byte blocks of a padded message; the
fuel (the padded length suffices) only bounds the number of blocks. -/
def md5Blocks : Nat → Nat × Nat × Nat × Nat → List Nat →
    Nat × Nat × Nat × Nat
  | 0, st, _ => st
  | fuel + 1, st, bytes =>
    if bytes = [] then st
    else md5Blocks fuel (md5Block st (bytes.take 64)) (bytes.drop 64)

/-- `md5::compute` (RFC 1321): the 16-byte MD5 digest of a byte string.
Checked against the standard test vectors (empty string, `"abc"`,
`"The quick brown fox jumps over the lazy dog"`, multi-block and
padding-boundary inputs). -/
def md5Compute (msg : List Nat) : List Nat :=
  let p := md5Pad msg
  let st := md5Blocks p.length
    (0x67452301, 0xefcdab89, 0x98badcfe, 0x10325476) p
  le4 st.1 ++ le4 st.2.1 ++ le4 st.2.2.1 ++ le4 st.2.2.2

/-- A nibble as a lowercase hexadecimal character, as `fmt::LowerHex`
renders it. -/
def hexDigit (n : Nat) : Char :=
  if n < 10 then Char.ofNat (48 + n) else Char.ofNat (87 + n)

/-- A byte as two lowercase hexadecimal characters. -/
def byteHex (b : Nat) : List Char := [hexDigit (b / 16), hexDigit (b % 16)]

/-- `format!` with the `:x` specifier on an `md5::Digest`: every digest
byte as two lowercase hexadecimal characters. -/
def bytesHex (l : List Nat) : List Char := (l.map byteHex).flatten

/-- UTF-8 encoding of one scalar value (`str::as_bytes` per char). -/
def utf8Bytes (c : Char) : List Nat :=
  if c.toNat < 128 then [c.toNat]
  else if c.toNat < 2048 then [192 + c.toNat / 64, 128 + c.toNat % 64]
  else if c.toNat < 65536 then
    [224 + c.toNat / 4096, 128 + c.toNat / 64 % 64, 128 + c.toNat % 64]
  else
    [240 + c.toNat / 262144, 128 + c.toNat / 4096 % 64,
     128 + c.toNat / 64 % 64, 128 + c.toNat % 64]

/-- `str::as_bytes`: the UTF-8 byte sequence of a string. -/
def strBytes (s : List Char) : List Nat := (s.map utf8Bytes).flatten

/-- Decimal digits of `n`, most significant first, prepended to `acc`
(empty for `n = 0`); fuel-driven so the kernel can evaluate it. -/
def natDecGo : Nat → Nat → List Char → List Char
  | 0, _, acc => acc
  | fuel + 1, n, acc =>
    if n = 0 then acc
    else natDecGo fuel (n / 10) (Nat.digitChar (n % 10) :: acc)

/-- `format!` of a `usize`: decimal rendering without leading zeros. -/
def natDec (n : Nat) : List Char :=
  if n = 0 then ['0'] else natDecGo (n + 1) n []

/-- `str::to_lowercase`, restricted to ASCII input as elsewhere in this
development (the full Unicode lowering tables belong to std). -/
def rustToLowercase (s : List Char) : List Char :=
  s.map fun c =>
    if 65 ≤ c.toNat ∧ c.toNat ≤ 90 then Char.ofNat (c.toNat + 32) else c

/-- The combined pre-hash string of `CacheKey::new`
(`src/cache/key.rs:27-38`): the seven inputs joined with NUL
separators, the color as its three components joined with commas.  The
`Display` rendering of the three `f32` color components belongs to std
and is abstracted: the color enters as its three rendered component
strings.  Written fully right-nested so each slot is one append
factor. -/
def cacheCombined (doc_id : List Char) (page_num : Nat)
    (text_content translator : List Char) (source_lang target_lang : Lang)
    (rStr gStr bStr : List Char) : List Char :=
  doc_id ++ ([Char.ofNat 0] ++ (natDec page_num ++ ([Char.ofNat 0]
    ++ (text_content ++ ([Char.ofNat 0] ++ (rustToLowercase translator
    ++ ([Char.ofNat 0] ++ (source_lang.code ++ ([Char.ofNat 0]
    ++ (target_lang.code ++ ([Char.ofNat 0] ++ (rStr ++ ([',']
    ++ (gStr ++ ([','] ++ bStr)))))))))))))))

/-- `CacheKey::new` (`src/cache/key.rs:15-43`): the lowercase
hexadecimal rendering of the MD5 digest of the UTF-8 bytes of the
combined pre-hash string. -/
def CacheKey.new (doc_id : List Char) (page_num : Nat)
    (text_content translator : List Char) (source_lang target_lang : Lang)
    (rStr gStr bStr : List Char) : List Char :=
  bytesHex (md5Compute (strBytes
    (cacheCombined doc_id page_num text_content translator
      source_lang target_lang rStr gStr bStr)))

/-- A lowercase hexadecimal digit: `0`-`9` or `a`-`f`. -/
def isLowerHexDigit (c : Char) : Prop :=
  (48 ≤ c.toNat ∧ c.toNat ≤ 57) ∨ (97 ≤ c.toNat ∧ c.toNat ≤ 102)

/-- Value of a byte list read as a little-endian base-256 numeral. -/
def bytesVal : List Nat → Nat
  | [] => 0
  | b :: r => b + 256 * bytesVal r

/-- One step of decimal parsing: shift in the digit character `c`. -/
def decStep (a : Nat) (c : Char) : Nat := a * 10 + (c.toNat - 48)

/-- Parse a decimal digit string, most significant digit first. -/
def decVal (l : List Char) : Nat := l.foldl decStep 0

/-- Numeric mirror of `natDecGo`: shift the digits of `n` into the
accumulator `a`. -/
def pushNatGo : Nat → Nat → Nat → Nat
  | 0, a, _ => a
  | fuel + 1, a, n =>
    if n = 0 then a else pushNatGo fuel a (n / 10) * 10 + n % 10

-- ============================================================================
-- Helper theorems
-- ============================================================================

theorem splitWsAux_ne_nil (s : List Char) :
    ∀ acc, ∀ w ∈ splitWsAux s acc, w ≠ [] := by
  induction s with
  | nil =>
    intro acc w hw
    simp only [splitWsAux] at hw
    split at hw
    · simp at hw
    · rename_i hacc
      simp only [List.mem_singleton] at hw
      subst hw
      simpa using hacc
  | cons c cs ih =>
    intro acc w hw
    simp only [splitWsAux] at hw
    split at hw
    · split at hw
      · exact ih [] w hw
      · rename_i hacc
        rcases List.mem_cons.mp hw with h | h
        · subst h; simpa using hacc
        · exact ih [] w h
    · exact ih (c :: acc) w hw

theorem splitWhitespace_ne_nil (s : List Char) :
    ∀ w ∈ splitWhitespace s, w ≠ [] :=
  splitWsAux_ne_nil s []

theorem string_width_append (f : EmbeddedFont) (a b : List Char) (s : ℚ) :
    f.string_width (a ++ b) s = f.string_width a s + f.string_width b s := by
  simp [EmbeddedFont.string_width, add_mul, add_div]

theorem string_width_nil (f : EmbeddedFont) (s : ℚ) :
    f.string_width [] s = 0 := by
  simp [EmbeddedFont.string_width]

theorem joinSp_append_ne (l : List (List Char)) (x : List Char)
    (h : l ≠ []) : joinSp (l ++ [x]) = joinSp l ++ ' ' :: x := by
  induction l with
  | nil => simp at h
  | cons a l ih =>
    cases l with
    | nil => rfl
    | cons b l2 =>
      show a ++ ' ' :: joinSp ((b :: l2) ++ [x])
        = (a ++ ' ' :: joinSp (b :: l2)) ++ ' ' :: x
      rw [ih (by simp)]
      simp

theorem joinSp_append_last (l : List (List Char)) (a b : List Char) :
    joinSp (l ++ [a ++ b]) = joinSp (l ++ [a]) ++ b := by
  by_cases h : l = []
  · subst h
    rfl
  · rw [joinSp_append_ne l _ h, joinSp_append_ne l _ h]
    simp

theorem joinSp_cons_tailWords (w : List Char) (ws : List (List Char)) :
    joinSp (w :: ws) = w ++ tailWords ws := by
  induction ws generalizing w with
  | nil => simp [joinSp, tailWords]
  | cons v ws ih =>
    show w ++ ' ' :: joinSp (v :: ws) = w ++ tailWords (v :: ws)
    rw [ih]
    simp [tailWords]

-- ============================================================================
-- Theorems for C9 and C8
-- ============================================================================

/-- C9: `PageIndex::try_from_page_num(page_num, total_pages)` returns an
`InvalidPage` error carrying the requested page number and the total page
count exactly when `page_num ≥ total_pages` or `page_num` does not fit in
the `i32` index type; otherwise it returns a page index whose value equals
`page_num`. -/
theorem pageIndex_try_from_page_num_spec (p t : Nat) :
    (PageIndex.try_from_page_num p t = .error (.PdfInvalidPage p t)
      ↔ (t ≤ p ∨ i32Max < p))
    ∧ (p < t → p ≤ i32Max → PageIndex.try_from_page_num p t = .ok p) := by
  unfold PageIndex.try_from_page_num
  constructor
  · constructor
    · intro h
      by_contra hc
      push_neg at hc
      rw [if_neg (by omega), if_neg (by omega)] at h
      exact Except.noConfusion h
    · intro h
      rcases Nat.lt_or_ge p t with hlt | hge
      · rw [if_neg (by omega), if_pos (by omega)]
      · rw [if_pos (by omega)]
  · intro h1 h2
    rw [if_neg (by omega), if_neg (by omega)]

/-- Witness for C9: page 3 of 10 is accepted with value 3, and page 10 of
10 is rejected with the requested page and total. -/
theorem pageIndex_try_from_page_num_spec_witness :
    PageIndex.try_from_page_num 3 10 = .ok 3
    ∧ PageIndex.try_from_page_num 10 10 = .error (.PdfInvalidPage 10 10) := by
  constructor
  · exact (pageIndex_try_from_page_num_spec 3 10).2 (by decide) (by decide)
  · exact (pageIndex_try_from_page_num_spec 10 10).1.mpr (Or.inl (by decide))

/-- C8: the translator's `translate` operation returns the input text
unchanged whenever the text trims to the empty string, or the source
language equals the target language and that language is not `"auto"`.
The result holds for every backend `request` function, i.e. the backend
is never contacted in those cases. -/
theorem openAiTranslator_translate_skip
    (request : List Char → Except Error (List Char))
    (text : List Char) (source target : Lang)
    (h : trim text = []
      ∨ (source.code = target.code ∧ source.code ≠ "auto".toList)) :
    OpenAiTranslator.translate request text source target = .ok text := by
  unfold OpenAiTranslator.translate
  rcases h with h | h
  · rw [if_pos h]
  · by_cases ht : trim text = []
    · rw [if_pos ht]
    · rw [if_neg ht, if_pos h]

/-- Witness for C8: blank text `" "` passes through unchanged, and
`"hi"` with source = target = `"en"` passes through unchanged, for a
backend that always fails. -/
theorem openAiTranslator_translate_skip_witness :
    OpenAiTranslator.translate (fun _ => .error (.PdfOverlay []))
      [' '] ⟨"en".toList⟩ ⟨"fr".toList⟩ = .ok [' ']
    ∧ OpenAiTranslator.translate (fun _ => .error (.PdfOverlay []))
      "hi".toList ⟨"en".toList⟩ ⟨"en".toList⟩ = .ok "hi".toList := by
  constructor
  · exact openAiTranslator_translate_skip _ _ _ _ (Or.inl (by decide))
  · exact openAiTranslator_translate_skip _ _ _ _ (Or.inr (by decide))

-- ============================================================================
-- Theorems for C5 and C4 (word_wrap)
-- ============================================================================

theorem breakChars_lineOk (font : EmbeddedFont) (font_size max_width : ℚ)
    (cs : List Char) :
    ∀ lines chunk cw,
    (∀ l ∈ lines, LineOk font font_size max_width l) →
    LineOk font font_size max_width chunk →
    cw = font.string_width chunk font_size →
    (∀ l ∈ (breakChars font font_size max_width cs lines chunk cw).1,
        LineOk font font_size max_width l)
    ∧ LineOk font font_size max_width
        (breakChars font font_size max_width cs lines chunk cw).2.1
    ∧ (breakChars font font_size max_width cs lines chunk cw).2.2
        = font.string_width
            (breakChars font font_size max_width cs lines chunk cw).2.1
            font_size := by
  induction cs with
  | nil =>
    intro lines chunk cw hl hc hw
    exact ⟨hl, hc, hw⟩
  | cons c cs ih =>
    intro lines chunk cw hl hc hw
    simp only [breakChars]
    split
    · rename_i hcond
      apply ih
      · intro l hmem
        rcases List.mem_append.mp hmem with h | h
        · exact hl l h
        · rw [List.mem_singleton] at h
          subst h
          exact hc
      · by_cases hle : font.string_width [c] font_size ≤ max_width
        · exact Or.inl hle
        · exact Or.inr ⟨c, rfl, lt_of_not_le hle⟩
      · rfl
    · rename_i hcond
      push_neg at hcond
      apply ih
      · exact hl
      · by_cases hnil : chunk = []
        · subst hnil
          by_cases hle : font.string_width [c] font_size ≤ max_width
          · exact Or.inl (by simpa using hle)
          · exact Or.inr ⟨c, by simp, lt_of_not_le hle⟩
        · have hle2 : cw + font.string_width [c] font_size ≤ max_width :=
            le_of_not_lt (fun h => hnil (hcond h))
          left
          rw [string_width_append, ← hw]
          exact hle2
      · rw [string_width_append, hw]

theorem wrapLoop_lineOk (font : EmbeddedFont)
    (font_size max_width space_width : ℚ) (hmax : 0 ≤ max_width)
    (hsp : space_width = font.string_width [' '] font_size)
    (ws : List (List Char)) :
    ∀ lines current cw,
    (∀ l ∈ lines, LineOk font font_size max_width l) →
    LineOk font font_size max_width current →
    cw = font.string_width current font_size →
    (∀ l ∈ (wrapLoop font font_size max_width space_width
        ws lines current cw).1, LineOk font font_size max_width l)
    ∧ LineOk font font_size max_width
        (wrapLoop font font_size max_width space_width
          ws lines current cw).2 := by
  induction ws with
  | nil =>
    intro lines current cw hl hc _
    exact ⟨hl, hc⟩
  | cons w ws ih =>
    intro lines current cw hl hc hw
    simp only [wrapLoop]
    split
    · -- overlong word: push current (if nonempty) and break at characters
      have hbk := breakChars_lineOk font font_size max_width w
        (if current ≠ [] then lines ++ [current] else lines) [] 0
        (by
          split
          · intro l hmem
            rcases List.mem_append.mp hmem with h | h
            · exact hl l h
            · rw [List.mem_singleton] at h
              subst h
              exact hc
          · exact hl)
        (Or.inl (by rw [string_width_nil]; exact hmax))
        (by rw [string_width_nil])
      exact ih _ _ _ hbk.1 hbk.2.1 hbk.2.2
    · split
      · -- empty current line: the word becomes the current line
        rename_i hfit _
        exact ih lines w _ hl (Or.inl (le_of_not_lt hfit)) rfl
      · split
        · -- word fits on the current line
          rename_i hfit hne hle
          apply ih lines (current ++ ' ' :: w) _ hl
          · left
            have hsplit : (' ' :: w : List Char) = [' '] ++ w := rfl
            rw [string_width_append, hsplit, string_width_append, ← hw, ← hsp]
            linarith [hle]
          · have hsplit : (' ' :: w : List Char) = [' '] ++ w := rfl
            rw [string_width_append, hsplit, string_width_append, ← hw, ← hsp,
              add_assoc]
        · -- word starts a new line
          rename_i hfit hne _
          apply ih (lines ++ [current]) w _ _
            (Or.inl (le_of_not_lt hfit)) rfl
          intro l hmem
          rcases List.mem_append.mp hmem with h | h
          · exact hl l h
          · rw [List.mem_singleton] at h
            subst h
            exact hc

/-- C5: `word_wrap` respects the width bound: every line it produces has
rendered width (per the font's `string_width` at the given font size) at
most `max_width`, except a line consisting of a single character whose own
width already exceeds `max_width`.  Stated for the non-degenerate case
`0 ≤ max_width` (the caller floors `max_width` at 100 points). -/
theorem word_wrap_width_bound (text : List Char) (max_width : ℚ)
    (font : EmbeddedFont) (font_size : ℚ) (hmax : 0 ≤ max_width) :
    ∀ l ∈ word_wrap text max_width font font_size,
      font.string_width l font_size ≤ max_width
        ∨ ∃ c, l = [c] ∧ max_width < font.string_width [c] font_size := by
  intro l hl
  simp only [word_wrap] at hl
  have hloop := wrapLoop_lineOk font font_size max_width
    (font.string_width [' '] font_size) hmax rfl (splitWhitespace text)
    [] [] 0
    (by intro x hx; simp at hx)
    (Or.inl (by rw [string_width_nil]; exact hmax))
    (by rw [string_width_nil])
  split at hl
  · rw [if_neg (by simp)] at hl
    rcases List.mem_append.mp hl with h | h
    · exact hloop.1 l h
    · rw [List.mem_singleton] at h
      subst h
      exact hloop.2
  · split at hl
    · rw [List.mem_singleton] at hl
      subst hl
      exact Or.inl (by rw [string_width_nil]; exact hmax)
    · exact hloop.1 l hl

/-- Witness for C5: wrapping a concrete text at width 3 with a unit-width
font — every produced line is within the bound or an oversized single
character. -/
theorem word_wrap_width_bound_witness :
    (0 : ℚ) ≤ 3
    ∧ ∀ l ∈ word_wrap "hello to the world".toList 3
        ⟨fun _ => 1, 1⟩ 1,
      EmbeddedFont.string_width ⟨fun _ => 1, 1⟩ l 1 ≤ 3
        ∨ ∃ c, l = [c]
            ∧ (3 : ℚ) < EmbeddedFont.string_width ⟨fun _ => 1, 1⟩ [c] 1 :=
  ⟨by norm_num,
    word_wrap_width_bound "hello to the world".toList 3 ⟨fun _ => 1, 1⟩ 1
      (by norm_num)⟩

theorem breakChars_flatten (font : EmbeddedFont) (font_size max_width : ℚ)
    (cs : List Char) :
    ∀ lines chunk cw,
    (breakChars font font_size max_width cs lines chunk cw).1.flatten
      ++ (breakChars font font_size max_width cs lines chunk cw).2.1
    = lines.flatten ++ chunk ++ cs := by
  induction cs with
  | nil =>
    intro lines chunk cw
    simp [breakChars]
  | cons c cs ih =>
    intro lines chunk cw
    simp only [breakChars]
    split
    · rw [ih]
      simp
    · rw [ih]
      simp

theorem wrapLoop_join (font : EmbeddedFont)
    (font_size max_width space_width : ℚ) (ws : List (List Char)) :
    ∀ lines current cw, current ≠ [] →
    (∀ w ∈ ws, font.string_width w font_size ≤ max_width ∧ w ≠ []) →
    (wrapLoop font font_size max_width space_width ws lines current cw).2
      ≠ []
    ∧ joinSp ((wrapLoop font font_size max_width space_width
          ws lines current cw).1
        ++ [(wrapLoop font font_size max_width space_width
          ws lines current cw).2])
      = joinSp (lines ++ [current]) ++ tailWords ws := by
  induction ws with
  | nil =>
    intro lines current cw hcur _
    exact ⟨hcur, by simp [wrapLoop, tailWords]⟩
  | cons w ws ih =>
    intro lines current cw hcur hws
    have hw := hws w (List.mem_cons_self w ws)
    simp only [wrapLoop]
    rw [if_neg (not_lt.mpr hw.1), if_neg hcur]
    split
    · -- the word fits on the current line
      have hr := ih lines (current ++ ' ' :: w)
        (cw + space_width + font.string_width w font_size)
        (by simp) (fun v hv => hws v (List.mem_cons_of_mem w hv))
      refine ⟨hr.1, ?_⟩
      rw [hr.2, joinSp_append_last lines current (' ' :: w)]
      simp [tailWords]
    · -- the word starts a new line
      have hr := ih (lines ++ [current]) w (font.string_width w font_size)
        hw.2 (fun v hv => hws v (List.mem_cons_of_mem w hv))
      refine ⟨hr.1, ?_⟩
      rw [hr.2, joinSp_append_ne (lines ++ [current]) w (by simp)]
      simp [tailWords]

theorem wrapLoop_cons_fits (font : EmbeddedFont)
    (font_size max_width space_width : ℚ) (w : List Char)
    (ws lines : List (List Char)) (cw : ℚ)
    (hfit : ¬font.string_width w font_size > max_width) :
    wrapLoop font font_size max_width space_width (w :: ws) lines [] cw
      = wrapLoop font font_size max_width space_width ws lines w
          (font.string_width w font_size) := by
  simp only [wrapLoop]
  rw [if_neg hfit]
  simp

theorem wrapLoop_cons_big (font : EmbeddedFont)
    (font_size max_width space_width : ℚ) (w : List Char)
    (ws lines : List (List Char)) (cw : ℚ)
    (hbig : font.string_width w font_size > max_width) :
    wrapLoop font font_size max_width space_width (w :: ws) lines [] cw
      = wrapLoop font font_size max_width space_width ws
          (breakChars font font_size max_width w lines [] 0).1
          (breakChars font font_size max_width w lines [] 0).2.1
          (breakChars font font_size max_width w lines [] 0).2.2 := by
  simp only [wrapLoop]
  rw [if_pos hbig]
  simp

/-- C4 (amended): `word_wrap` is lossless at word level provided every
whitespace-separated word fits within `max_width`: joining the returned
lines with single spaces then reproduces the whitespace-collapsed input
exactly.  Unconditionally, for an input consisting of a single word
(oversized or not), concatenating the produced lines without separators
reproduces that word exactly; and `word_wrap` of the empty string returns
exactly one empty line. -/
theorem word_wrap_reconstruction (text : List Char) (max_width : ℚ)
    (font : EmbeddedFont) (font_size : ℚ) :
    ((∀ w ∈ splitWhitespace text,
        font.string_width w font_size ≤ max_width) →
      joinSp (word_wrap text max_width font font_size)
        = joinSp (splitWhitespace text))
    ∧ (∀ w, splitWhitespace text = [w] →
        (word_wrap text max_width font font_size).flatten = w)
    ∧ word_wrap [] max_width font font_size = [[]] := by
  refine ⟨?_, ?_, ?_⟩
  · intro hfit
    cases hsw : splitWhitespace text with
    | nil =>
      simp [word_wrap, hsw, wrapLoop, joinSp]
    | cons w ws =>
      have hne := splitWhitespace_ne_nil text
      rw [hsw] at hne
      have hwfit := hfit
      rw [hsw] at hwfit
      have hr := wrapLoop_join font font_size max_width
        (font.string_width [' '] font_size) ws [] w
        (font.string_width w font_size)
        (hne w (List.mem_cons_self w ws))
        (fun v hv => ⟨hwfit v (List.mem_cons_of_mem w hv),
          hne v (List.mem_cons_of_mem w hv)⟩)
      simp only [word_wrap, hsw]
      rw [wrapLoop_cons_fits font font_size max_width
        (font.string_width [' '] font_size) w ws [] 0
        (not_lt.mpr (hwfit w (List.mem_cons_self w ws)))]
      rw [if_pos hr.1, if_neg (by simp), hr.2, joinSp_cons_tailWords]
      rfl
  · intro w hsw
    have hwne : w ≠ [] :=
      splitWhitespace_ne_nil text w
        (by rw [hsw]; exact List.mem_singleton.mpr rfl)
    simp only [word_wrap, hsw]
    by_cases hbig : font.string_width w font_size > max_width
    · rw [wrapLoop_cons_big font font_size max_width
        (font.string_width [' '] font_size) w [] [] 0 hbig]
      simp only [wrapLoop]
      have hbk := breakChars_flatten font font_size max_width w [] [] 0
      simp only [List.flatten_nil, List.nil_append] at hbk
      by_cases hch :
          (breakChars font font_size max_width w [] [] 0).2.1 = []
      · rw [hch, List.append_nil] at hbk
        have hb1 : (breakChars font font_size max_width w [] [] 0).1 ≠ [] := by
          intro h
          rw [h] at hbk
          exact hwne (by rw [← hbk]; rfl)
        rw [if_neg (not_not_intro hch), if_neg hb1]
        exact hbk
      · rw [if_pos hch, if_neg (by simp)]
        simp only [List.flatten_append, List.flatten_cons,
          List.flatten_nil, List.append_nil]
        exact hbk
    · rw [wrapLoop_cons_fits font font_size max_width
        (font.string_width [' '] font_size) w [] [] 0 hbig]
      simp only [wrapLoop]
      rw [if_pos hwne, if_neg (by simp)]
      simp
  · rfl

/-- Counterexample to C4 as stated: with a font of unit character widths
and `max_width = 1`, the single word `"ab"` is broken into character
chunks, and joining the produced lines `["a", "b"]` with single spaces
yields `"a b"`, not the whitespace-collapsed input `"ab"`. -/
theorem word_wrap_not_lossless :
    word_wrap "ab".toList 1 ⟨fun _ => 1, 1⟩ 1 = [['a'], ['b']]
    ∧ joinSp (word_wrap "ab".toList 1 ⟨fun _ => 1, 1⟩ 1)
      ≠ joinSp (splitWhitespace "ab".toList) := by
  constructor
  · with_unfolding_all rfl
  · exact of_decide_eq_true (by with_unfolding_all rfl)

/-- Witness for C4: a two-word text whose words both fit at width 5 with
a unit-width font wraps losslessly; `"ab"` is a single word recovered by
concatenation; the empty input gives one empty line. -/
theorem word_wrap_reconstruction_witness :
    joinSp (word_wrap "hello you".toList 5 ⟨fun _ => 1, 1⟩ 1)
      = joinSp (splitWhitespace "hello you".toList)
    ∧ (word_wrap "ab".toList 1 ⟨fun _ => 1, 1⟩ 1).flatten = "ab".toList
    ∧ word_wrap [] 1 ⟨fun _ => 1, 1⟩ 1 = [[]] := by
  refine ⟨?_, ?_, ?_⟩
  · exact (word_wrap_reconstruction "hello you".toList 5
      ⟨fun _ => 1, 1⟩ 1).1
      (of_decide_eq_true (by with_unfolding_all rfl))
  · exact (word_wrap_reconstruction "ab".toList 1
      ⟨fun _ => 1, 1⟩ 1).2.1 "ab".toList
      (of_decide_eq_true (by with_unfolding_all rfl))
  · exact (word_wrap_reconstruction [] 1 ⟨fun _ => 1, 1⟩ 1).2.2

-- ============================================================================
-- Theorems for C3 (overlap adjustment) and C7 (cover rectangle)
-- ============================================================================

theorem shiftPass_chain (bs : List RenderBlock) :
    ∀ floor_y (prev : RenderBlock), floor_y ≤ prev.text_bottom_y →
    List.Chain'
      (fun a b => b.text_start_y ≤ a.text_bottom_y - MIN_BLOCK_GAP)
      (prev :: shiftPass floor_y bs) := by
  induction bs with
  | nil =>
    intro floor_y prev _
    simp [shiftPass]
  | cons b bs ih =>
    intro floor_y prev hfp
    simp only [shiftPass]
    rcases le_or_lt b.text_start_y (floor_y - MIN_BLOCK_GAP) with hle | hgt
    · rw [if_neg (not_lt.mpr hle)]
      rw [List.chain'_cons]
      refine ⟨by linarith, ?_⟩
      exact ih (min floor_y b.text_bottom_y) b (min_le_right _ _)
    · rw [if_pos hgt]
      rw [List.chain'_cons]
      constructor
      · show b.text_start_y - (b.text_start_y - (floor_y - MIN_BLOCK_GAP))
          ≤ prev.text_bottom_y - MIN_BLOCK_GAP
        linarith
      · exact ih _ _ (min_le_right _ _)

/-- C3: after `adjust_blocks_to_prevent_overlap`, for every adjacent pair
of blocks in the resulting order, the lower block's `text_start_y` is at
most the upper block's `text_bottom_y` (its `text_start_y` minus
`lines.len().max(1)` times `line_height`) minus the minimum gap of
8 points. -/
theorem adjust_blocks_no_overlap (blocks : List RenderBlock) :
    List.Chain'
      (fun a b => b.text_start_y ≤ a.text_bottom_y - MIN_BLOCK_GAP)
      (adjust_blocks_to_prevent_overlap blocks) := by
  unfold adjust_blocks_to_prevent_overlap
  split
  · rename_i h
    match blocks, h with
    | [], _ => exact List.chain'_nil
    | [b], _ => exact List.chain'_singleton b
  · split
    · exact List.chain'_nil
    · exact shiftPass_chain _ _ _ (le_refl _)

/-- Counterexample to C7 as stated: a block whose original bounding box
extends past the page width.  With page width 612 and a box from
x = 100 to x = 700 (original width 600), the cover rectangle is clamped
to the remaining page width 612 − 95 = 517 < 600. -/
theorem from_overlay_clamp_shrinks :
    (RenderBlock.from_overlay
        ⟨⟨100, 50, 700, 70⟩, [], [], 13⟩ 792 612 13
        ⟨fun _ => 1, 1⟩).rect_width
      < BoundingBox.width ⟨100, 50, 700, 70⟩ :=
  of_decide_eq_true (by with_unfolding_all rfl)

/-- C7 (amended): the cover rectangle is never smaller than the original
box in height; and it is never smaller than the original box in width
provided the original box lies horizontally within the page
(`0 ≤ x0` and `x1 ≤ page_width`) — otherwise the clamp to the remaining
page width can shrink it below the original width. -/
theorem from_overlay_cover (overlay : TranslationOverlay)
    (page_height page_width font_size : ℚ) (font : EmbeddedFont) :
    overlay.bbox.height
      ≤ (RenderBlock.from_overlay overlay page_height page_width
          font_size font).rect_height
    ∧ (0 ≤ overlay.bbox.x0 → overlay.bbox.x1 ≤ page_width →
        overlay.bbox.width
          ≤ (RenderBlock.from_overlay overlay page_height page_width
              font_size font).rect_width) := by
  simp only [RenderBlock.from_overlay, BoundingBox.width, BoundingBox.height,
    RECT_LEFT_PADDING, RECT_RIGHT_PADDING, RECT_TOP_PADDING,
    RECT_BOTTOM_PADDING]
  constructor
  · have h := le_max_left (overlay.bbox.y1 - overlay.bbox.y0)
      (((word_wrap overlay.translated
          (max (page_width - overlay.bbox.x0 - PAGE_RIGHT_MARGIN) 100)
          font font_size).length : ℚ) * (font_size * LINE_HEIGHT_FACTOR))
    linarith
  · intro hx0 hx1
    apply le_min
    · have h := le_max_left (overlay.bbox.x1 - overlay.bbox.x0)
        (((word_wrap overlay.translated
            (max (page_width - overlay.bbox.x0 - PAGE_RIGHT_MARGIN) 100)
            font font_size).map fun l =>
              font.string_width l font_size).foldl max 0)
      linarith
    · have h : max (overlay.bbox.x0 - 5) 0
          ≤ page_width - (overlay.bbox.x1 - overlay.bbox.x0) :=
        max_le (by linarith) (by linarith)
      linarith

/-- Witness for C7: a box from x = 10 to x = 200 on a 612-point-wide page
satisfies both hypotheses, and its cover rectangle is at least as wide as
the original box. -/
theorem from_overlay_cover_witness :
    (0 : ℚ) ≤ 10 ∧ (200 : ℚ) ≤ 612
    ∧ BoundingBox.width ⟨10, 50, 200, 70⟩
      ≤ (RenderBlock.from_overlay ⟨⟨10, 50, 200, 70⟩, [], [], 13⟩
          792 612 13 ⟨fun _ => 1, 1⟩).rect_width :=
  ⟨by norm_num, by norm_num,
    (from_overlay_cover ⟨⟨10, 50, 200, 70⟩, [], [], 13⟩ 792 612 13
      ⟨fun _ => 1, 1⟩).2 (by norm_num) (by norm_num)⟩

-- ============================================================================
-- Theorems for C6 (hyphen merge)
-- ============================================================================

theorem should_merge_iff (b1 b2 : TextBlock) :
    should_merge b1 b2 = true ↔ claimHyphenMergeCond b1 b2 := by
  simp only [should_merge, claimHyphenMergeCond, Bool.and_eq_true,
    Bool.or_eq_true, decide_eq_true_eq, Bool.not_eq_true',
    and_assoc]

/-- C6 (amended): on a pair of blocks in ascending-top order, the hyphen
merge pass merges them exactly when the first ends in a hyphen (after
trimming), the second starts with a lowercase character or is a spaceless
token shorter than 20 UTF-8 bytes, and their vertical gap is below 3
times the average of their heights; the merged block drops the hyphen,
concatenates without a space, takes the union box, sums line counts and
keeps the smaller font size. -/
theorem merge_hyphenated_two (b1 b2 : TextBlock)
    (hsort : b1.bbox.y0 ≤ b2.bbox.y0) :
    (claimHyphenMergeCond b1 b2 →
      merge_hyphenated_blocks [b1, b2] = [claimHyphenMerged b1 b2])
    ∧ (¬claimHyphenMergeCond b1 b2 →
      merge_hyphenated_blocks [b1, b2] = [b1, b2]) := by
  have hsorted : List.mergeSort [b1, b2]
      (fun a b => decide (a.bbox.y0 ≤ b.bbox.y0)) = [b1, b2] :=
    List.mergeSort_of_sorted (by simp [hsort])
  have hmain : merge_hyphenated_blocks [b1, b2]
      = if should_merge b1 b2 then [mergeTwo b1 b2] else [b1, b2] := by
    unfold merge_hyphenated_blocks
    rw [if_neg (by simp)]
    rw [hsorted]
    simp only [mergeLoop]
  constructor
  · intro hcond
    rw [hmain, if_pos ((should_merge_iff b1 b2).mpr hcond)]
    have htext : mergeTwo b1 b2 = claimHyphenMerged b1 b2 := by
      simp only [mergeTwo, claimHyphenMerged]
      rw [if_pos hcond.1]
    rw [htext]
  · intro hcond
    rw [hmain,
      if_neg (fun h => hcond ((should_merge_iff b1 b2).mp h))]

/-- Counterexample to C6 as stated: the fragment test uses the UTF-8 byte
length (`str::len`), not the character count.  `"ÉÉÉÉÉÉÉÉÉÉ"` has 10
characters (shorter than 20 characters, spaceless, not lowercase), sits
vertically close below `"exam-"`, yet the code does not merge because its
byte length is 20. -/
theorem merge_hyphenated_byte_length_counterexample :
    ((trimStart "ÉÉÉÉÉÉÉÉÉÉ".toList).length < 20
      ∧ (trimStart "ÉÉÉÉÉÉÉÉÉÉ".toList).contains ' ' = false
      ∧ (trimEnd "exam-".toList).getLast? = some '-'
      ∧ |(112 : ℚ) - 110|
          < (((110 : ℚ) - 100) + ((122 : ℚ) - 112)) / 2 * 3)
    ∧ merge_hyphenated_blocks
        [⟨"exam-".toList, ⟨10, 100, 50, 110⟩, 12, 1⟩,
         ⟨"ÉÉÉÉÉÉÉÉÉÉ".toList, ⟨10, 112, 50, 122⟩, 12, 1⟩]
      = [⟨"exam-".toList, ⟨10, 100, 50, 110⟩, 12, 1⟩,
         ⟨"ÉÉÉÉÉÉÉÉÉÉ".toList, ⟨10, 112, 50, 122⟩, 12, 1⟩] :=
  of_decide_eq_true (by with_unfolding_all rfl)

/-- Witness for C6: `"exam-"` followed by a vertically close `"ple"`
merges to `"example"` with union box, summed line count and minimum font
size; the same pair separated vertically by far more than 3x the average
height does not merge. -/
theorem merge_hyphenated_two_witness :
    merge_hyphenated_blocks
        [⟨"exam-".toList, ⟨10, 100, 50, 110⟩, 12, 1⟩,
         ⟨"ple".toList, ⟨10, 112, 50, 122⟩, 12, 1⟩]
      = [⟨"example".toList, ⟨10, 100, 50, 122⟩, 12, 2⟩]
    ∧ merge_hyphenated_blocks
        [⟨"exam-".toList, ⟨10, 100, 50, 110⟩, 12, 1⟩,
         ⟨"ple".toList, ⟨10, 400, 50, 410⟩, 12, 1⟩]
      = [⟨"exam-".toList, ⟨10, 100, 50, 110⟩, 12, 1⟩,
         ⟨"ple".toList, ⟨10, 400, 50, 410⟩, 12, 1⟩] := by
  constructor
  · have h := (merge_hyphenated_two
        ⟨"exam-".toList, ⟨10, 100, 50, 110⟩, 12, 1⟩
        ⟨"ple".toList, ⟨10, 112, 50, 122⟩, 12, 1⟩
        (by norm_num)).1
      (of_decide_eq_true (by with_unfolding_all rfl))
    rw [h]
    with_unfolding_all rfl
  · exact (merge_hyphenated_two
        ⟨"exam-".toList, ⟨10, 100, 50, 110⟩, 12, 1⟩
        ⟨"ple".toList, ⟨10, 400, 50, 410⟩, 12, 1⟩
        (by norm_num)).2
      (of_decide_eq_false (by with_unfolding_all rfl))

-- ============================================================================
-- Theorems for C10 (media-box lookup)
-- ============================================================================

theorem get_media_box_recursive_eq (doc : Doc) :
    ∀ (depth : Nat) (obj : Object),
    get_media_box_recursive doc obj depth
      = .ok ((mediaBoxSearch doc obj depth).getD usLetterBox) := by
  intro depth
  induction depth with
  | zero =>
    intro obj
    cases obj <;> rfl
  | succ d ih =>
    intro obj
    cases obj with
    | Dictionary dict =>
      simp only [get_media_box_recursive, mediaBoxSearch]
      cases foundBox doc dict with
      | some b => rfl
      | none =>
        cases parentObj doc dict with
        | some parent => exact ih parent
        | none => rfl
    | Null => rfl
    | Boolean b => rfl
    | Integer i => rfl
    | Real r => rfl
    | Name n => rfl
    | String s => rfl
    | Array els => rfl
    | Stream sd sdata => rfl
    | Reference id => rfl

/-- C10: media-box lookup is total: for every document and page object it
returns `Ok` of the box found on the object or through at most 10 Parent
links, and the US Letter default `[0, 0, 612, 792]` when no well-formed
`MediaBox` is found — in particular it never returns an error, even on a
cyclic Parent chain (second conjunct: a self-parenting page). -/
theorem get_media_box_total :
    (∀ (doc : Doc) (page_obj : Object),
      get_media_box doc page_obj
        = .ok ((mediaBoxSearch doc page_obj 10).getD usLetterBox))
    ∧ get_media_box
        ⟨[(1, .Dictionary [("Parent".toList, .Reference 1)])], [], 1⟩
        (.Dictionary [("Parent".toList, .Reference 1)])
      = .ok usLetterBox := by
  constructor
  · intro doc page_obj
    exact get_media_box_recursive_eq doc 10 page_obj
  · with_unfolding_all rfl

-- ============================================================================
-- Theorems for C2 (combine_pdfs)
-- ============================================================================

theorem renumMap_not_mem :
    ∀ (keys : List Nat) (start q : Nat), q ∉ keys →
    renumMap keys start q = q := by
  intro keys
  induction keys with
  | nil => intro start q _; rfl
  | cons k ks ih =>
    intro start q hq
    simp only [renumMap]
    rw [if_neg (by intro h; exact hq (h ▸ List.mem_cons_self k ks))]
    exact ih (start + 1) q (fun h => hq (List.mem_cons_of_mem k h))

theorem renumMap_lb :
    ∀ (keys : List Nat) (start q : Nat), q ∈ keys →
    start ≤ renumMap keys start q := by
  intro keys
  induction keys with
  | nil => intro start q hq; simp at hq
  | cons k ks ih =>
    intro start q hq
    simp only [renumMap]
    split
    · exact le_refl start
    · rename_i hne
      rcases List.mem_cons.mp hq with h | h
      · exact absurd h hne
      · exact Nat.le_of_succ_le (ih (start + 1) q h)

theorem renumMap_ub :
    ∀ (keys : List Nat) (start q : Nat), q ∈ keys →
    renumMap keys start q < start + keys.length := by
  intro keys
  induction keys with
  | nil => intro start q hq; simp at hq
  | cons k ks ih =>
    intro start q hq
    simp only [renumMap, List.length_cons]
    split
    · omega
    · rename_i hne
      rcases List.mem_cons.mp hq with h | h
      · exact absurd h hne
      · have := ih (start + 1) q h
        omega

theorem renumMap_mono :
    ∀ (keys : List Nat) (start a b : Nat),
    List.Pairwise (· < ·) keys → a ∈ keys → b ∈ keys → a < b →
    renumMap keys start a < renumMap keys start b := by
  intro keys
  induction keys with
  | nil => intro start a b _ ha; simp at ha
  | cons k ks ih =>
    intro start a b hp ha hb hab
    have hklt : ∀ x ∈ ks, k < x := (List.pairwise_cons.mp hp).1
    have hptail : List.Pairwise (· < ·) ks := (List.pairwise_cons.mp hp).2
    simp only [renumMap]
    by_cases hak : a = k
    · rw [if_pos hak]
      have hbk : b ≠ k := by omega
      rw [if_neg hbk]
      have hbtail : b ∈ ks := (List.mem_cons.mp hb).resolve_left hbk
      exact renumMap_lb ks (start + 1) b hbtail
    · have hatail : a ∈ ks := (List.mem_cons.mp ha).resolve_left hak
      have hka : k < a := hklt a hatail
      have hbk : b ≠ k := by omega
      have hbtail : b ∈ ks := (List.mem_cons.mp hb).resolve_left hbk
      rw [if_neg hak, if_neg hbk]
      exact ih (start + 1) a b hptail hatail hbtail hab

theorem renumMap_inj (keys : List Nat) (start : Nat)
    (hp : List.Pairwise (· < ·) keys) :
    ∀ a b, a ∈ keys → b ∈ keys →
    renumMap keys start a = renumMap keys start b → a = b := by
  intro a b ha hb heq
  rcases lt_trichotomy a b with h | h | h
  · exact absurd heq (ne_of_lt (renumMap_mono keys start a b hp ha hb h))
  · exact h
  · exact absurd heq.symm
      (ne_of_lt (renumMap_mono keys start b a hp hb ha h))

theorem dictGet_cons (k : List Char) (v : Object)
    (rest : List (List Char × Object)) (key : List Char) :
    dictGet ((k, v) :: rest) key
      = if k = key then some v else dictGet rest key := by
  by_cases hk : k = key
  · simp [dictGet, List.find?, hk]
  · simp [dictGet, List.find?, hk]

theorem lookupObj_cons (k : Nat) (o : Object) (rest : List (Nat × Object))
    (id : Nat) :
    ((((k, o) :: rest).find? fun p => p.1 = id).map (·.2))
      = if k = id then some o
        else ((rest.find? fun p => p.1 = id).map (·.2)) := by
  by_cases hk : k = id
  · simp [List.find?, hk]
  · simp [List.find?, hk]

theorem dictGet_renumber (f : Nat → Nat)
    (dd : List (List Char × Object)) (key : List Char) :
    dictGet (renumberDict f dd) key
      = (dictGet dd key).map (renumberObj f) := by
  induction dd with
  | nil => rfl
  | cons p rest ih =>
    obtain ⟨k, v⟩ := p
    show dictGet ((k, renumberObj f v) :: renumberDict f rest) key = _
    rw [dictGet_cons, dictGet_cons]
    by_cases hk : k = key
    · rw [if_pos hk, if_pos hk]
      rfl
    · rw [if_neg hk, if_neg hk]
      exact ih

theorem find?_map_renumber (f : Nat → Nat) (keys : List Nat)
    (hinj : ∀ a b, a ∈ keys → b ∈ keys → f a = f b → a = b)
    (id : Nat) (hid : id ∈ keys) :
    ∀ (l : List (Nat × Object)), (∀ p ∈ l, p.1 ∈ keys) →
    (((l.map fun p => (f p.1, renumberObj f p.2)).find?
        fun p => p.1 = f id).map (·.2))
      = ((l.find? fun p => p.1 = id).map (·.2)).map (renumberObj f) := by
  intro l
  induction l with
  | nil => intro _; rfl
  | cons p rest ih =>
    intro hsub
    obtain ⟨k, o⟩ := p
    have hk : k ∈ keys := hsub (k, o) (List.mem_cons_self _ _)
    simp only [List.map_cons]
    rw [lookupObj_cons, lookupObj_cons]
    by_cases hkid : k = id
    · subst hkid
      rw [if_pos rfl, if_pos rfl]
      rfl
    · have hfne : ¬(f k = f id) := fun h => hkid (hinj k id hk hid h)
      rw [if_neg hfne, if_neg hkid]
      exact ih (fun q hq => hsub q (List.mem_cons_of_mem _ hq))

theorem get_object_renumber (doc : Doc) (start : Nat)
    (hp : List.Pairwise (· < ·) (doc.objects.map (·.1)))
    (id : Nat) (hid : id ∈ doc.objects.map (·.1)) :
    (doc.renumber_objects_with start).get_object
        (renumMap (doc.objects.map (·.1)) start id)
      = (doc.get_object id).map
          (renumberObj (renumMap (doc.objects.map (·.1)) start)) := by
  unfold Doc.renumber_objects_with Doc.get_object
  exact find?_map_renumber _ _
    (renumMap_inj (doc.objects.map (·.1)) start hp) id hid
    doc.objects (fun p hp' => List.mem_map_of_mem (·.1) hp')

theorem refsClosedList_mem (keys : List Nat) :
    ∀ els, refsClosedList keys els = true →
    ∀ o ∈ els, refsClosedObj keys o = true := by
  intro els
  induction els with
  | nil => intro _ o ho; simp at ho
  | cons e es ih =>
    intro h o ho
    rw [show refsClosedList keys (e :: es)
        = (refsClosedObj keys e && refsClosedList keys es) from rfl,
      Bool.and_eq_true] at h
    rcases List.mem_cons.mp ho with h' | h'
    · exact h' ▸ h.1
    · exact ih h.2 o h'

theorem refsClosedDict_get (keys : List Nat) :
    ∀ dd, refsClosedDict keys dd = true →
    ∀ k v, dictGet dd k = some v → refsClosedObj keys v = true := by
  intro dd
  induction dd with
  | nil => intro _ k v hv; simp [dictGet] at hv
  | cons p rest ih =>
    intro h k v hv
    obtain ⟨k', v'⟩ := p
    rw [show refsClosedDict keys ((k', v') :: rest)
        = (refsClosedObj keys v' && refsClosedDict keys rest) from rfl,
      Bool.and_eq_true] at h
    rw [dictGet_cons] at hv
    split at hv
    · cases hv
      exact h.1
    · exact ih h.2 k v hv

theorem refIds_mem_keys (keys : List Nat) :
    ∀ kids, refsClosedList keys kids = true →
    ∀ x ∈ kids.filterMap refId, x ∈ keys := by
  intro kids
  induction kids with
  | nil => intro _ x hx; simp at hx
  | cons o os ih =>
    intro h x hx
    rw [show refsClosedList keys (o :: os)
        = (refsClosedObj keys o && refsClosedList keys os) from rfl,
      Bool.and_eq_true] at h
    rw [List.filterMap_cons] at hx
    cases ho : refId o with
    | none =>
      rw [ho] at hx
      exact ih h.2 x hx
    | some r =>
      rw [ho] at hx
      rcases List.mem_cons.mp hx with h' | h'
      · subst h'
        cases o with
        | Reference id =>
          cases ho
          have := h.1
          rw [show refsClosedObj keys (.Reference x)
              = decide (x ∈ keys) from rfl] at this
          exact of_decide_eq_true this
        | Null => simp [refId] at ho
        | Boolean b => simp [refId] at ho
        | Integer i => simp [refId] at ho
        | Real r' => simp [refId] at ho
        | Name n => simp [refId] at ho
        | String s => simp [refId] at ho
        | Array els => simp [refId] at ho
        | Dictionary d => simp [refId] at ho
        | Stream d data => simp [refId] at ho
      · exact ih h.2 x h'

theorem refIds_renumber (f : Nat → Nat) :
    ∀ kids, (renumberObjList f kids).filterMap refId
      = (kids.filterMap refId).map f := by
  intro kids
  induction kids with
  | nil => rfl
  | cons o os ih =>
    show (renumberObj f o :: renumberObjList f os).filterMap refId = _
    rw [List.filterMap_cons, List.filterMap_cons]
    cases o with
    | Reference id => simp [renumberObj, refId, ih]
    | Null => simpa [renumberObj, refId] using ih
    | Boolean b => simpa [renumberObj, refId] using ih
    | Integer i => simpa [renumberObj, refId] using ih
    | Real r => simpa [renumberObj, refId] using ih
    | Name n => simpa [renumberObj, refId] using ih
    | String s => simpa [renumberObj, refId] using ih
    | Array els => simpa [renumberObj, refId] using ih
    | Dictionary d => simpa [renumberObj, refId] using ih
    | Stream d data => simpa [renumberObj, refId] using ih

theorem get_object_pair_mem (doc : Doc) (id : Nat) (o : Object)
    (h : doc.get_object id = some o) : (id, o) ∈ doc.objects := by
  unfold Doc.get_object at h
  cases hf : doc.objects.find? fun p => p.1 = id with
  | none => rw [hf] at h; cases h
  | some p =>
    rw [hf] at h
    cases h
    have hmem := List.mem_of_find?_eq_some hf
    have hpred := List.find?_some hf
    simp only [decide_eq_true_eq] at hpred
    obtain ⟨k, v⟩ := p
    cases hpred
    exact hmem

theorem mem_keys_get_object :
    ∀ (l : List (Nat × Object)) (id : Nat), id ∈ l.map (·.1) →
    ∃ o, ((l.find? fun p => p.1 = id).map (·.2)) = some o := by
  intro l
  induction l with
  | nil => intro id h; simp at h
  | cons p rest ih =>
    intro id h
    obtain ⟨k, o⟩ := p
    rw [lookupObj_cons]
    by_cases hk : k = id
    · exact ⟨o, if_pos hk⟩
    · rw [if_neg hk]
      apply ih
      simp only [List.map_cons, List.mem_cons] at h
      rcases h with h' | h'
      · exact absurd h'.symm hk
      · exact h'

theorem collect_mem (doc : Doc) :
    ∀ (fuel id q : Nat), q ∈ collectPageIds doc fuel id →
    q ∈ doc.objects.map (·.1) := by
  intro fuel
  induction fuel with
  | zero => intro id q hq; simp [collectPageIds] at hq
  | succ fuel ih =>
    intro id q hq
    simp only [collectPageIds] at hq
    split at hq
    · rename_i d hobj
      split at hq
      · rename_i ty _
        split at hq
        · rw [List.mem_singleton] at hq
          subst hq
          exact List.mem_map_of_mem (·.1)
            (get_object_pair_mem doc q _ hobj)
        · split at hq
          · split at hq
            · rename_i kids _
              obtain ⟨kid, _, hq'⟩ := List.mem_flatMap.mp hq
              exact ih kid q hq'
            · simp at hq
          · simp at hq
      · simp at hq
    · simp at hq

theorem collect_commute (doc : Doc) (start : Nat)
    (hp : List.Pairwise (· < ·) (doc.objects.map (·.1)))
    (hclosed : ∀ p ∈ doc.objects,
      refsClosedObj (doc.objects.map (·.1)) p.2 = true) :
    ∀ (fuel id : Nat), id ∈ doc.objects.map (·.1) →
    collectPageIds (doc.renumber_objects_with start) fuel
        (renumMap (doc.objects.map (·.1)) start id)
      = (collectPageIds doc fuel id).map
          (renumMap (doc.objects.map (·.1)) start) := by
  intro fuel
  induction fuel with
  | zero => intro id _; rfl
  | succ fuel ih =>
    intro id hid
    simp only [collectPageIds]
    rw [get_object_renumber doc start hp id hid]
    cases hobj : doc.get_object id with
    | none => simp
    | some obj =>
      cases obj with
      | Dictionary d =>
        simp only [Option.map_some', renumberObj]
        rw [dictGet_renumber]
        cases hty : dictGet d "Type".toList with
        | none => simp
        | some tobj =>
          cases tobj with
          | Name ty =>
            simp only [Option.map_some', renumberObj]
            by_cases hpage : ty = "Page".toList
            · rw [if_pos hpage, if_pos hpage]
              simp
            · rw [if_neg hpage, if_neg hpage]
              by_cases hpages : ty = "Pages".toList
              · rw [if_pos hpages, if_pos hpages]
                rw [dictGet_renumber]
                cases hkids : dictGet d "Kids".toList with
                | none => simp
                | some kobj =>
                  cases kobj with
                  | Array kids =>
                    simp only [Option.map_some', renumberObj]
                    rw [refIds_renumber]
                    have hclosedd : refsClosedDict
                        (doc.objects.map (·.1)) d = true := by
                      have hmem := get_object_pair_mem doc id _ hobj
                      exact hclosed _ hmem
                    have hclosedkids : ∀ x ∈ kids.filterMap refId,
                        x ∈ doc.objects.map (·.1) := by
                      apply refIds_mem_keys
                      exact refsClosedDict_get _ d hclosedd
                        "Kids".toList _ hkids
                    have hgen : ∀ (l : List Nat),
                        (∀ x ∈ l, x ∈ doc.objects.map (·.1)) →
                        (l.map
                            (renumMap (doc.objects.map (·.1)) start)).flatMap
                            (collectPageIds
                              (doc.renumber_objects_with start) fuel)
                          = (l.flatMap (collectPageIds doc fuel)).map
                              (renumMap (doc.objects.map (·.1)) start) := by
                      intro l
                      induction l with
                      | nil => intro _; rfl
                      | cons x xs ihl =>
                        intro hx
                        simp only [List.map_cons, List.flatMap_cons,
                          List.map_append]
                        rw [ih x (hx x (List.mem_cons_self _ _)),
                          ihl (fun y hy => hx y (List.mem_cons_of_mem _ hy))]
                    exact hgen _ hclosedkids
                  | Null => simp [renumberObj]
                  | Boolean b => simp [renumberObj]
                  | Integer i => simp [renumberObj]
                  | Real r => simp [renumberObj]
                  | Name n => simp [renumberObj]
                  | String s => simp [renumberObj]
                  | Dictionary d2 => simp [renumberObj]
                  | Stream d2 data => simp [renumberObj]
                  | Reference r => simp [renumberObj]
              · rw [if_neg hpages, if_neg hpages]
                simp
          | Null => simp [renumberObj]
          | Boolean b => simp [renumberObj]
          | Integer i => simp [renumberObj]
          | Real r => simp [renumberObj]
          | String s => simp [renumberObj]
          | Array els => simp [renumberObj]
          | Dictionary d2 => simp [renumberObj]
          | Stream d2 data => simp [renumberObj]
          | Reference r => simp [renumberObj]
      | Null => simp [renumberObj]
      | Boolean b => simp [renumberObj]
      | Integer i => simp [renumberObj]
      | Real r => simp [renumberObj]
      | Name n => simp [renumberObj]
      | String s => simp [renumberObj]
      | Array els => simp [renumberObj]
      | Stream d2 data => simp [renumberObj]
      | Reference r => simp [renumberObj]

theorem pagesRoot_mem (doc : Doc)
    (_hclosedT : refsClosedDict (doc.objects.map (·.1)) doc.trailer = true)
    (hclosedO : ∀ p ∈ doc.objects,
      refsClosedObj (doc.objects.map (·.1)) p.2 = true)
    (pid : Nat) (h : pagesRoot doc = some pid) :
    pid ∈ doc.objects.map (·.1) := by
  unfold pagesRoot at h
  split at h
  · rename_i cat_id hroot
    split at h
    · rename_i cat hcat
      split at h
      · rename_i pid' hpg
        cases h
        have hcatd : refsClosedObj (doc.objects.map (·.1))
            (.Dictionary cat) = true :=
          hclosedO _ (get_object_pair_mem doc cat_id _ hcat)
        have hpidc := refsClosedDict_get _ cat hcatd "Pages".toList _ hpg
        rw [show refsClosedObj (doc.objects.map (·.1)) (.Reference pid)
            = decide (pid ∈ doc.objects.map (·.1)) from rfl] at hpidc
        exact of_decide_eq_true hpidc
      · cases h
    · cases h
  · cases h

theorem pagesRoot_renumber (doc : Doc) (start : Nat)
    (hp : List.Pairwise (· < ·) (doc.objects.map (·.1)))
    (hclosedT : refsClosedDict (doc.objects.map (·.1)) doc.trailer
      = true) :
    pagesRoot (doc.renumber_objects_with start)
      = (pagesRoot doc).map (renumMap (doc.objects.map (·.1)) start) := by
  unfold pagesRoot
  show (match dictGet (renumberDict
      (renumMap (doc.objects.map (·.1)) start) doc.trailer)
      "Root".toList with
    | some (.Reference cat_id) => _
    | _ => none) = _
  rw [dictGet_renumber]
  cases hroot : dictGet doc.trailer "Root".toList with
  | none => rfl
  | some o =>
    cases o with
    | Reference cat_id =>
      simp only [Option.map_some', renumberObj]
      have hcatmem : cat_id ∈ doc.objects.map (·.1) := by
        have := refsClosedDict_get _ doc.trailer hclosedT
          "Root".toList _ hroot
        rw [show refsClosedObj (doc.objects.map (·.1)) (.Reference cat_id)
            = decide (cat_id ∈ doc.objects.map (·.1)) from rfl] at this
        exact of_decide_eq_true this
      rw [get_object_renumber doc start hp cat_id hcatmem]
      cases hcat : doc.get_object cat_id with
      | none => rfl
      | some co =>
        cases co with
        | Dictionary cat =>
          simp only [Option.map_some', renumberObj]
          rw [dictGet_renumber]
          cases hpg : dictGet cat "Pages".toList with
          | none => rfl
          | some po =>
            cases po with
            | Reference pid => simp [renumberObj]
            | Null => simp [renumberObj]
            | Boolean b => simp [renumberObj]
            | Integer i => simp [renumberObj]
            | Real r => simp [renumberObj]
            | Name n => simp [renumberObj]
            | String s => simp [renumberObj]
            | Array els => simp [renumberObj]
            | Dictionary d2 => simp [renumberObj]
            | Stream d2 data => simp [renumberObj]
        | Null => simp [renumberObj]
        | Boolean b => simp [renumberObj]
        | Integer i => simp [renumberObj]
        | Real r => simp [renumberObj]
        | Name n => simp [renumberObj]
        | String s => simp [renumberObj]
        | Array els => simp [renumberObj]
        | Stream d2 data => simp [renumberObj]
        | Reference r => simp [renumberObj]
    | Null => simp [renumberObj]
    | Boolean b => simp [renumberObj]
    | Integer i => simp [renumberObj]
    | Real r => simp [renumberObj]
    | Name n => simp [renumberObj]
    | String s => simp [renumberObj]
    | Array els => simp [renumberObj]
    | Dictionary d2 => simp [renumberObj]
    | Stream d2 data => simp [renumberObj]

theorem get_pages_renumber (doc : Doc) (start : Nat) (hwf : doc.wf) :
    (doc.renumber_objects_with start).get_pages_ids
      = doc.get_pages_ids.map
          (renumMap (doc.objects.map (·.1)) start) := by
  obtain ⟨hp, hclosedO, hclosedT⟩ := hwf
  unfold Doc.get_pages_ids
  rw [pagesRoot_renumber doc start hp hclosedT]
  cases hroot : pagesRoot doc with
  | none => rfl
  | some pid =>
    simp only [Option.map_some']
    have hlen : (doc.renumber_objects_with start).objects.length
        = doc.objects.length := by
      simp [Doc.renumber_objects_with]
    rw [hlen]
    exact collect_commute doc start hp hclosedO
      (doc.objects.length + 1) pid
      (pagesRoot_mem doc hclosedT hclosedO pid hroot)

theorem get_pages_mem (doc : Doc) :
    ∀ q ∈ doc.get_pages_ids, q ∈ doc.objects.map (·.1) := by
  intro q hq
  unfold Doc.get_pages_ids at hq
  split at hq
  · exact collect_mem doc _ _ q hq
  · simp at hq

theorem mem_insertSorted_keys :
    ∀ (m : List (Nat × Object)) (id : Nat) (obj : Object) (k : Nat),
    k ∈ (insertSorted id obj m).map (·.1) →
    k = id ∨ k ∈ m.map (·.1) := by
  intro m
  induction m with
  | nil =>
    intro id obj k hk
    simp [insertSorted] at hk
    exact Or.inl hk
  | cons p rest ih =>
    intro id obj k hk
    obtain ⟨i, o⟩ := p
    simp only [insertSorted] at hk
    split at hk
    · simpa using hk
    · split at hk
      · rename_i hlt heq
        simp only [List.map_cons, List.mem_cons] at hk ⊢
        rcases hk with h | h
        · exact Or.inl h
        · exact Or.inr (Or.inr h)
      · simp only [List.map_cons, List.mem_cons] at hk ⊢
        rcases hk with h | h
        · exact Or.inr (Or.inl h)
        · rcases ih id obj k h with h' | h'
          · exact Or.inl h'
          · exact Or.inr (Or.inr h')

theorem id_mem_insertSorted :
    ∀ (m : List (Nat × Object)) (id : Nat) (obj : Object),
    id ∈ (insertSorted id obj m).map (·.1) := by
  intro m
  induction m with
  | nil => intro id obj; simp [insertSorted]
  | cons p rest ih =>
    intro id obj
    obtain ⟨i, o⟩ := p
    simp only [insertSorted]
    split
    · simp
    · split
      · simp
      · simp only [List.map_cons, List.mem_cons]
        exact Or.inr (ih id obj)

theorem insertSorted_sorted :
    ∀ (m : List (Nat × Object)) (id : Nat) (obj : Object),
    List.Pairwise (· < ·) (m.map (·.1)) →
    List.Pairwise (· < ·) ((insertSorted id obj m).map (·.1)) := by
  intro m
  induction m with
  | nil => intro id obj _; simp [insertSorted]
  | cons p rest ih =>
    intro id obj hp
    obtain ⟨i, o⟩ := p
    simp only [List.map_cons, List.pairwise_cons] at hp
    simp only [insertSorted]
    split
    · rename_i hlt
      simp only [List.map_cons, List.pairwise_cons]
      refine ⟨?_, hp.1, hp.2⟩
      intro k hk
      simp only [List.mem_cons] at hk
      rcases hk with h | h
      · omega
      · have := hp.1 k h
        omega
    · split
      · rename_i hnlt heq
        subst heq
        simp only [List.map_cons, List.pairwise_cons]
        exact hp
      · rename_i hnlt hne
        simp only [List.map_cons, List.pairwise_cons]
        constructor
        · intro k hk
          rcases mem_insertSorted_keys rest id obj k hk with h | h
          · omega
          · exact hp.1 k h
        · exact ih id obj hp.2

theorem insertSorted_append :
    ∀ (m : List (Nat × Object)) (id : Nat) (obj : Object),
    (∀ k ∈ m.map (·.1), k < id) →
    insertSorted id obj m = m ++ [(id, obj)] := by
  intro m
  induction m with
  | nil => intro id obj _; rfl
  | cons p rest ih =>
    intro id obj hgt
    obtain ⟨i, o⟩ := p
    have hi : i < id := hgt i (by simp)
    simp only [insertSorted]
    rw [if_neg (by omega), if_neg (by omega)]
    rw [ih id obj (fun k hk => hgt k (by simp [hk]))]
    rfl

theorem foldl_skip_insert_sorted :
    ∀ (l : List (Nat × Object)) (acc : List (Nat × Object)),
    List.Pairwise (· < ·) (acc.map (·.1)) →
    List.Pairwise (· < ·)
      ((l.foldl
        (fun m p =>
          if isStructuralType p.2.type_name then m
          else insertSorted p.1 p.2 m)
        acc).map (·.1)) := by
  intro l
  induction l with
  | nil => intro acc h; exact h
  | cons p rest ih =>
    intro acc h
    simp only [List.foldl_cons]
    by_cases hg : isStructuralType p.2.type_name
    · rw [if_pos hg]
      exact ih _ h
    · rw [if_neg hg]
      exact ih _ (insertSorted_sorted acc p.1 p.2 h)

theorem mergeFold_spec :
    ∀ (docs : List Doc)
      (acc : Nat × List (Nat × Object) × List (Nat × Object)),
    (∀ d ∈ docs, d.wf ∧ ∃ p, d.get_pages_ids = [p]) →
    1 ≤ acc.1 →
    List.Pairwise (· < ·) (acc.2.1.map (·.1)) →
    (∀ k ∈ acc.2.1.map (·.1), k < acc.1) →
    List.Pairwise (· < ·) (acc.2.2.map (·.1)) →
    (docs.foldl mergeStep acc).2.1.map (·.1)
        = acc.2.1.map (·.1) ++ pageIdsFrom docs acc.1
    ∧ List.Pairwise (· < ·) ((docs.foldl mergeStep acc).2.1.map (·.1))
    ∧ (∀ k ∈ (docs.foldl mergeStep acc).2.1.map (·.1),
        k < (docs.foldl mergeStep acc).1)
    ∧ List.Pairwise (· < ·) ((docs.foldl mergeStep acc).2.2.map (·.1))
    ∧ 1 ≤ (docs.foldl mergeStep acc).1 := by
  intro docs
  induction docs with
  | nil =>
    intro acc _ h1 h2 h3 h4
    exact ⟨by simp [pageIdsFrom], h2, h3, h4, h1⟩
  | cons d ds ih =>
    intro acc hdocs h1 h2 h3 h4
    obtain ⟨⟨hp, hcO, hcT⟩, p, hpg⟩ := hdocs d (List.mem_cons_self _ _)
    have hpmem : p ∈ d.objects.map (·.1) :=
      get_pages_mem d p (by rw [hpg]; exact List.mem_singleton.mpr rfl)
    have hne : d.objects ≠ [] := by
      intro h
      rw [h] at hpmem
      simp at hpmem
    have hlen1 : 1 ≤ d.objects.length := List.length_pos.mpr hne
    have hrenpg : (d.renumber_objects_with acc.1).get_pages_ids
        = [renumMap (d.objects.map (·.1)) acc.1 p] := by
      rw [get_pages_renumber d acc.1 ⟨hp, hcO, hcT⟩, hpg]
      rfl
    have hfplb := renumMap_lb (d.objects.map (·.1)) acc.1 p hpmem
    have hfpub := renumMap_ub (d.objects.map (·.1)) acc.1 p hpmem
    rw [List.length_map] at hfpub
    obtain ⟨o, ho⟩ := mem_keys_get_object d.objects p hpmem
    have hgo : d.get_object p = some o := ho
    have hgo' : (d.renumber_objects_with acc.1).get_object
          (renumMap (d.objects.map (·.1)) acc.1 p)
        = some (renumberObj (renumMap (d.objects.map (·.1)) acc.1) o) := by
      rw [get_object_renumber d acc.1 hp p hpmem, hgo]
      rfl
    have hstep1 : (mergeStep acc d).1 = acc.1 + d.objects.length := by
      show (d.renumber_objects_with acc.1).max_id + 1 = _
      simp only [Doc.renumber_objects_with, List.length_map]
      omega
    have hstep2 : (mergeStep acc d).2.1
        = acc.2.1 ++ [(renumMap (d.objects.map (·.1)) acc.1 p,
            renumberObj (renumMap (d.objects.map (·.1)) acc.1) o)] := by
      show ((d.renumber_objects_with acc.1).get_pages_ids.filterMap
          fun pid => ((d.renumber_objects_with acc.1).get_object pid).map
            fun o => (pid, o)).foldl
          (fun m q => insertSorted q.1 q.2 m) acc.2.1 = _
      rw [hrenpg]
      simp only [List.filterMap_cons, List.filterMap_nil, hgo',
        Option.map_some']
      rw [List.foldl_cons, List.foldl_nil]
      exact insertSorted_append acc.2.1 _ _
        (fun k hk => lt_of_lt_of_le (h3 k hk) hfplb)
    have hstep3 : List.Pairwise (· < ·)
        ((mergeStep acc d).2.2.map (·.1)) := by
      show List.Pairwise _
        (((d.renumber_objects_with acc.1).objects.foldl _ acc.2.2).map (·.1))
      exact foldl_skip_insert_sorted _ acc.2.2 h4
    have h1' : 1 ≤ (mergeStep acc d).1 := by
      rw [hstep1]
      omega
    have h2' : List.Pairwise (· < ·) ((mergeStep acc d).2.1.map (·.1)) := by
      rw [hstep2, List.map_append]
      rw [List.pairwise_append]
      refine ⟨h2, by simp, ?_⟩
      intro a ha b hb
      simp only [List.map_cons, List.map_nil, List.mem_singleton] at hb
      subst hb
      exact lt_of_lt_of_le (h3 a ha) hfplb
    have h3' : ∀ k ∈ (mergeStep acc d).2.1.map (·.1),
        k < (mergeStep acc d).1 := by
      rw [hstep2, hstep1, List.map_append]
      intro k hk
      rcases List.mem_append.mp hk with h | h
      · have := h3 k h
        omega
      · simp only [List.map_cons, List.map_nil, List.mem_singleton] at h
        subst h
        exact hfpub
    have ihres := ih (mergeStep acc d)
      (fun d' hd' => hdocs d' (List.mem_cons_of_mem _ hd'))
      h1' h2' h3' hstep3
    rw [List.foldl_cons]
    refine ⟨?_, ihres.2.1, ihres.2.2.1, ihres.2.2.2.1, ihres.2.2.2.2⟩
    rw [ihres.1, hstep2]
    have hsame : (mergeStep acc d).1
        = (d.renumber_objects_with acc.1).max_id + 1 := rfl
    rw [hsame]
    show _ = acc.2.1.map (·.1) ++ pageIdsFrom (d :: ds) acc.1
    rw [show pageIdsFrom (d :: ds) acc.1
        = (d.renumber_objects_with acc.1).get_pages_ids
          ++ pageIdsFrom ds
            ((d.renumber_objects_with acc.1).max_id + 1) from rfl]
    rw [hrenpg, List.map_append]
    simp

theorem keys_mono_insertSorted :
    ∀ (m : List (Nat × Object)) (id : Nat) (obj : Object) (k : Nat),
    k ∈ m.map (·.1) → k ∈ (insertSorted id obj m).map (·.1) := by
  intro m
  induction m with
  | nil => intro id obj k hk; simp at hk
  | cons p rest ih =>
    intro id obj k hk
    obtain ⟨i, o⟩ := p
    simp only [List.map_cons, List.mem_cons] at hk
    simp only [insertSorted]
    split
    · simp only [List.map_cons, List.mem_cons]
      rcases hk with h | h
      · exact Or.inr (Or.inl h)
      · exact Or.inr (Or.inr h)
    · split
      · rename_i hnlt heq
        simp only [List.map_cons, List.mem_cons]
        rcases hk with h | h
        · exact Or.inl (by omega)
        · exact Or.inr h
      · simp only [List.map_cons, List.mem_cons]
        rcases hk with h | h
        · exact Or.inl h
        · exact Or.inr (ih id obj k h)

theorem lookup_insertSorted_self :
    ∀ (m : List (Nat × Object)) (id : Nat) (obj : Object),
    (((insertSorted id obj m).find? fun p => p.1 = id).map (·.2))
      = some obj := by
  intro m
  induction m with
  | nil => intro id obj; simp [insertSorted, List.find?]
  | cons p rest ih =>
    intro id obj
    obtain ⟨i, o⟩ := p
    simp only [insertSorted]
    split
    · rw [lookupObj_cons, if_pos rfl]
    · split
      · rw [lookupObj_cons, if_pos rfl]
      · rename_i hnlt hne
        rw [lookupObj_cons, if_neg (by omega)]
        exact ih id obj

theorem lookup_insertSorted_other :
    ∀ (m : List (Nat × Object)) (id : Nat) (obj : Object) (q : Nat),
    q ≠ id →
    (((insertSorted id obj m).find? fun p => p.1 = q).map (·.2))
      = ((m.find? fun p => p.1 = q).map (·.2)) := by
  intro m
  induction m with
  | nil =>
    intro id obj q hne
    simp only [insertSorted]
    rw [lookupObj_cons, if_neg (fun h => hne h.symm)]
  | cons p rest ih =>
    intro id obj q hne
    obtain ⟨i, o⟩ := p
    simp only [insertSorted]
    split
    · rw [lookupObj_cons, if_neg (fun h => hne h.symm)]
    · split
      · rename_i hnlt heq
        subst heq
        rw [lookupObj_cons, if_neg (fun h => hne h.symm),
          lookupObj_cons, if_neg (fun h => hne h.symm)]
      · rw [lookupObj_cons, lookupObj_cons]
        by_cases hiq : i = q
        · rw [if_pos hiq, if_pos hiq]
        · rw [if_neg hiq, if_neg hiq]
          exact ih id obj q hne

theorem pageIdsFrom_length :
    ∀ (docs : List Doc) (start : Nat),
    (∀ d ∈ docs, d.wf ∧ ∃ p, d.get_pages_ids = [p]) →
    (pageIdsFrom docs start).length = docs.length := by
  intro docs
  induction docs with
  | nil => intro start _; rfl
  | cons d ds ih =>
    intro start hdocs
    obtain ⟨hwf, p, hpg⟩ := hdocs d (List.mem_cons_self _ _)
    show ((d.renumber_objects_with start).get_pages_ids
      ++ pageIdsFrom ds _).length = _
    rw [List.length_append, get_pages_renumber d start hwf, hpg,
      ih _ (fun d' hd' => hdocs d' (List.mem_cons_of_mem _ hd'))]
    simp only [List.length_map, List.length_cons, List.length_nil]
    omega

theorem reparentPages_sorted :
    ∀ (l : List (Nat × Object)) (acc : List (Nat × Object)),
    List.Pairwise (· < ·) (acc.map (·.1)) →
    List.Pairwise (· < ·) ((reparentPages l acc).map (·.1)) := by
  intro l
  induction l with
  | nil => intro acc h; exact h
  | cons p rest ih =>
    intro acc h
    show List.Pairwise (· < ·) ((reparentPages rest _).map (·.1))
    obtain ⟨pid, po⟩ := p
    cases po with
    | Dictionary d => exact ih _ (insertSorted_sorted acc _ _ h)
    | Null => exact ih _ h
    | Boolean b => exact ih _ h
    | Integer i => exact ih _ h
    | Real r => exact ih _ h
    | Name n => exact ih _ h
    | String s => exact ih _ h
    | Array els => exact ih _ h
    | Stream d2 data => exact ih _ h
    | Reference r => exact ih _ h

theorem renumberObjList_refs (g : Nat → Nat) :
    ∀ (l : List (Nat × Object)),
    renumberObjList g (l.map fun p => Object.Reference p.1)
      = l.map fun p => Object.Reference (g p.1) := by
  intro l
  induction l with
  | nil => rfl
  | cons p rest ih =>
    show Object.Reference (g p.1) :: renumberObjList g _ = _
    rw [ih]
    rfl

/-- C2: `combine_pdfs` on an empty list fails with the "No pages to
combine" error; on exactly one buffer it returns that buffer
byte-identically; and for two or more loaded single-page well-formed
documents the merged document's trailer leads to a rebuilt catalog and
`Pages` node whose `Kids` lists exactly the input documents' pages, one
per input document and in input order (`mergedPageIds`), with `Count`
equal to the number of inputs.  `g` is the final renumbering map.
Loading and serialization belong to the external lopdf substrate and are
abstracted. -/
theorem combine_pdfs_spec
    (load : List Nat → Except Error Doc)
    (save : Doc → Except Error (List Nat)) :
    combine_pdfs load save []
      = .error (.PdfOverlay "No pages to combine".toList)
    ∧ (∀ b : List Nat, combine_pdfs load save [b] = .ok b)
    ∧ (∀ docs : List Doc, 2 ≤ docs.length →
        (∀ d ∈ docs, d.wf ∧ ∃ p, d.get_pages_ids = [p]) →
        ∃ g : Nat → Nat,
          dictGet (combineDocs docs).trailer "Root".toList
            = some (.Reference (g 2))
          ∧ (combineDocs docs).get_object (g 2)
            = some (.Dictionary
                [("Type".toList, .Name "Catalog".toList),
                 ("Pages".toList, .Reference (g 1))])
          ∧ (combineDocs docs).get_object (g 1)
            = some (.Dictionary
                [("Type".toList, .Name "Pages".toList),
                 ("Kids".toList, .Array ((mergedPageIds docs).map
                   fun q => Object.Reference (g q))),
                 ("Count".toList, .Integer (docs.length : Int))])
          ∧ (mergedPageIds docs).length = docs.length) := by
  refine ⟨rfl, fun b => rfl, ?_⟩
  intro docs _ hdocs
  have hlenpg : (mergedPageIds docs).length = docs.length :=
    pageIdsFrom_length docs 1 hdocs
  have hfold := mergeFold_spec docs (1, [], []) hdocs (le_refl 1)
    (by simp) (by simp) (by simp)
  obtain ⟨hkeys, hsortP, hboundP, hsortO, _⟩ := hfold
  simp only [List.map_nil, List.nil_append] at hkeys
  have hcd : combineDocs docs = Doc.renumber_objects_with
      { objects := insertSorted 2 newCatalog
          (insertSorted 1
            (newPagesDict (docs.foldl mergeStep (1, [], [])).2.1)
            (reparentPages (docs.foldl mergeStep (1, [], [])).2.1
              (docs.foldl mergeStep (1, [], [])).2.2))
        trailer := [("Root".toList, .Reference 2)]
        max_id := (insertSorted 2 newCatalog
          (insertSorted 1
            (newPagesDict (docs.foldl mergeStep (1, [], [])).2.1)
            (reparentPages (docs.foldl mergeStep (1, [], [])).2.1
              (docs.foldl mergeStep (1, [], [])).2.2))).length } 1 := rfl
  set M := docs.foldl mergeStep (1, [], []) with hM
  set O4 := insertSorted 2 newCatalog
    (insertSorted 1 (newPagesDict M.2.1) (reparentPages M.2.1 M.2.2))
    with hO4
  have hsort4 : List.Pairwise (· < ·) (O4.map (·.1)) := by
    rw [hO4]
    exact insertSorted_sorted _ 2 _
      (insertSorted_sorted _ 1 _ (reparentPages_sorted M.2.1 M.2.2 hsortO))
  have hmem2 : (2 : Nat) ∈ O4.map (·.1) := by
    rw [hO4]
    exact id_mem_insertSorted _ 2 _
  have hmem1 : (1 : Nat) ∈ O4.map (·.1) := by
    rw [hO4]
    exact keys_mono_insertSorted _ 2 _ 1 (id_mem_insertSorted _ 1 _)
  set D0 : Doc :=
    { objects := O4
      trailer := [("Root".toList, .Reference 2)]
      max_id := O4.length } with hD0
  have hD0obj : D0.objects = O4 := rfl
  refine ⟨renumMap (O4.map (·.1)) 1, ?_, ?_, ?_, hlenpg⟩
  · rw [hcd]
    simp [Doc.renumber_objects_with, hD0, renumberDict, renumberObj,
      dictGet, List.find?]
  · rw [hcd]
    have hsort4' : List.Pairwise (· < ·) (D0.objects.map (·.1)) := hsort4
    have hmem2' : (2 : Nat) ∈ D0.objects.map (·.1) := hmem2
    have hgo := get_object_renumber D0 1 hsort4' 2 hmem2'
    rw [hD0obj] at hgo
    rw [hgo]
    have hself : D0.get_object 2 = some newCatalog := by
      show ((O4.find? fun p => p.1 = 2).map (·.2)) = some newCatalog
      rw [hO4]
      exact lookup_insertSorted_self _ 2 newCatalog
    rw [hself]
    simp [newCatalog, renumberObj, renumberDict]
  · rw [hcd]
    have hsort4' : List.Pairwise (· < ·) (D0.objects.map (·.1)) := hsort4
    have hmem1' : (1 : Nat) ∈ D0.objects.map (·.1) := hmem1
    have hgo := get_object_renumber D0 1 hsort4' 1 hmem1'
    rw [hD0obj] at hgo
    rw [hgo]
    have hself : D0.get_object 1 = some (newPagesDict M.2.1) := by
      show ((O4.find? fun p => p.1 = 1).map (·.2))
        = some (newPagesDict M.2.1)
      rw [hO4]
      rw [lookup_insertSorted_other _ 2 newCatalog 1 (by omega)]
      exact lookup_insertSorted_self _ 1 _
    rw [hself]
    simp only [Option.map_some', newPagesDict, renumberObj, renumberDict]
    have hkids : renumberObjList (renumMap (O4.map (·.1)) 1)
        (M.2.1.map fun p => Object.Reference p.1)
        = (mergedPageIds docs).map
            fun q => Object.Reference (renumMap (O4.map (·.1)) 1 q) := by
      rw [renumberObjList_refs,
        show mergedPageIds docs = pageIdsFrom docs 1 from rfl,
        ← hkeys, List.map_map]
      rfl
    rw [hkids]
    have hcount : (M.2.1.length : Int) = (docs.length : Int) := by
      have hlm : M.2.1.length = (M.2.1.map (·.1)).length := by
        rw [List.length_map]
      rw [hlm, hkeys,
        show pageIdsFrom docs 1 = mergedPageIds docs from rfl, hlenpg]
    rw [hcount]

theorem combine_pdfs_spec_witness :
    combine_pdfs (fun _ => Except.error (Error.PdfOverlay []))
        (fun _ => Except.ok []) []
      = .error (.PdfOverlay "No pages to combine".toList)
    ∧ combine_pdfs (fun _ => Except.error (Error.PdfOverlay []))
        (fun _ => Except.ok []) [[37, 80, 68, 70]] = .ok [37, 80, 68, 70]
    ∧ (∃ g : Nat → Nat,
        dictGet (combineDocs [samplePageDoc, samplePageDoc]).trailer
            "Root".toList
          = some (.Reference (g 2))
        ∧ (combineDocs [samplePageDoc, samplePageDoc]).get_object (g 2)
          = some (.Dictionary
              [("Type".toList, .Name "Catalog".toList),
               ("Pages".toList, .Reference (g 1))])
        ∧ (combineDocs [samplePageDoc, samplePageDoc]).get_object (g 1)
          = some (.Dictionary
              [("Type".toList, .Name "Pages".toList),
               ("Kids".toList, .Array
                 ((mergedPageIds [samplePageDoc, samplePageDoc]).map
                   fun q => Object.Reference (g q))),
               ("Count".toList, .Integer
                 (([samplePageDoc, samplePageDoc] : List Doc).length : Int))])
        ∧ (mergedPageIds [samplePageDoc, samplePageDoc]).length
            = ([samplePageDoc, samplePageDoc] : List Doc).length) := by
  refine ⟨(combine_pdfs_spec _ _).1, (combine_pdfs_spec _ _).2.1 _,
    (combine_pdfs_spec (fun _ => Except.error (Error.PdfOverlay []))
        (fun _ => Except.ok [])).2.2 [samplePageDoc, samplePageDoc]
      (by decide) ?_⟩
  intro d hd
  have hda : d = samplePageDoc := by
    simp only [List.mem_cons, List.not_mem_nil, or_false] at hd
    rcases hd with h | h <;> exact h
  subst hda
  refine ⟨?_, 3, by with_unfolding_all rfl⟩
  unfold Doc.wf
  exact of_decide_eq_true (by with_unfolding_all rfl)

-- ============================================================================
-- Theorems for C1
-- ============================================================================

theorem digitChar_toNat (d : Nat) (h : d < 10) :
    (Nat.digitChar d).toNat = 48 + d := by
  interval_cases d <;> rfl

theorem natDecGo_foldl (fuel : Nat) :
    ∀ n acc a, List.foldl decStep a (natDecGo fuel n acc)
      = List.foldl decStep (pushNatGo fuel a n) acc := by
  induction fuel with
  | zero => intro n acc a; rfl
  | succ fuel ih =>
    intro n acc a
    by_cases hn : n = 0
    · simp [natDecGo, pushNatGo, hn]
    · rw [show natDecGo (fuel + 1) n acc
          = natDecGo fuel (n / 10) (Nat.digitChar (n % 10) :: acc) by
            simp [natDecGo, hn],
        show pushNatGo (fuel + 1) a n
          = pushNatGo fuel a (n / 10) * 10 + n % 10 by
            simp [pushNatGo, hn],
        ih (n / 10) (Nat.digitChar (n % 10) :: acc) a, List.foldl_cons]
      have hd : decStep (pushNatGo fuel a (n / 10)) (Nat.digitChar (n % 10))
          = pushNatGo fuel a (n / 10) * 10 + n % 10 := by
        unfold decStep
        rw [digitChar_toNat (n % 10) (Nat.mod_lt _ (by omega))]
        omega
      rw [hd]

theorem pushNatGo_zero (fuel : Nat) :
    ∀ n, n < fuel → pushNatGo fuel 0 n = n := by
  induction fuel with
  | zero => intro n h; omega
  | succ fuel ih =>
    intro n h
    by_cases hn : n = 0
    · simp [pushNatGo, hn]
    · rw [show pushNatGo (fuel + 1) 0 n
          = pushNatGo fuel 0 (n / 10) * 10 + n % 10 by simp [pushNatGo, hn],
        ih (n / 10) (by omega)]
      omega

theorem decVal_natDec (n : Nat) : decVal (natDec n) = n := by
  by_cases hn : n = 0
  · subst hn; rfl
  · unfold natDec decVal
    rw [if_neg hn, natDecGo_foldl, pushNatGo_zero (n + 1) n (by omega)]
    rfl

theorem natDec_inj {m n : Nat} (h : natDec m = natDec n) : m = n := by
  have := congrArg decVal h
  rwa [decVal_natDec, decVal_natDec] at this

theorem le4_lt (v : Nat) : ∀ x ∈ le4 v, x < 256 := by
  intro x hx
  simp only [le4, List.mem_cons, List.not_mem_nil, or_false] at hx
  rcases hx with h | h | h | h <;> subst h <;> exact Nat.mod_lt _ (by omega)

theorem md5Compute_length (m : List Nat) : (md5Compute m).length = 16 := by
  simp [md5Compute, le4]

theorem md5Compute_lt (m : List Nat) : ∀ x ∈ md5Compute m, x < 256 := by
  intro x hx
  unfold md5Compute at hx
  simp only [List.mem_append] at hx
  rcases hx with ((h | h) | h) | h <;> exact le4_lt _ x h

theorem md5Val_lt (m : List Nat) :
    bytesVal (md5Compute m) < 256 ^ 16 := by
  have h1 : ∀ l : List Nat, (∀ x ∈ l, x < 256) →
      bytesVal l < 256 ^ l.length := by
    intro l
    induction l with
    | nil => intro _; simp [bytesVal]
    | cons b r ih =>
      intro h
      have hb := h b (List.mem_cons_self b r)
      have hr := ih fun x hx => h x (List.mem_cons_of_mem _ hx)
      simp only [bytesVal, List.length_cons, pow_succ]
      omega
  have h2 := h1 (md5Compute m) (md5Compute_lt m)
  rwa [md5Compute_length] at h2

theorem bytesVal_inj :
    ∀ l1 l2 : List Nat, l1.length = l2.length →
    (∀ x ∈ l1, x < 256) → (∀ x ∈ l2, x < 256) →
    bytesVal l1 = bytesVal l2 → l1 = l2 := by
  intro l1
  induction l1 with
  | nil =>
    intro l2 hlen _ _ _
    cases l2 with
    | nil => rfl
    | cons b r => simp at hlen
  | cons b1 r1 ih =>
    intro l2 hlen h1 h2 hv
    cases l2 with
    | nil => simp at hlen
    | cons b2 r2 =>
      have hb1 := h1 b1 (List.mem_cons_self b1 r1)
      have hb2 := h2 b2 (List.mem_cons_self b2 r2)
      simp only [bytesVal] at hv
      have hbeq : b1 = b2 := by omega
      have hveq : bytesVal r1 = bytesVal r2 := by omega
      have hr : r1 = r2 := ih r2 (by simpa using hlen)
        (fun x hx => h1 x (List.mem_cons_of_mem _ hx))
        (fun x hx => h2 x (List.mem_cons_of_mem _ hx)) hveq
      rw [hbeq, hr]

theorem bytesHex_length (l : List Nat) :
    (bytesHex l).length = 2 * l.length := by
  induction l with
  | nil => rfl
  | cons b r ih =>
    simp only [bytesHex, List.map_cons, List.flatten_cons,
      List.length_append, List.length_cons] at ih ⊢
    simp only [byteHex, List.length_cons, List.length_nil]
    omega

theorem hexDigit_lower (n : Nat) (h : n < 16) :
    isLowerHexDigit (hexDigit n) := by
  simp only [isLowerHexDigit, hexDigit]
  interval_cases n <;> decide

theorem bytesHex_lower (l : List Nat) (hl : ∀ b ∈ l, b < 256) :
    ∀ c ∈ bytesHex l, isLowerHexDigit c := by
  induction l with
  | nil => intro c hc; simp [bytesHex] at hc
  | cons b r ih =>
    intro c hc
    simp only [bytesHex, List.map_cons, List.flatten_cons,
      List.mem_append] at hc
    rcases hc with hc | hc
    · have hb := hl b (List.mem_cons_self b r)
      simp only [byteHex, List.mem_cons, List.not_mem_nil, or_false] at hc
      rcases hc with h | h <;> subst h
      · exact hexDigit_lower _ (by omega)
      · exact hexDigit_lower _ (Nat.mod_lt _ (by omega))
    · exact ih (fun x hx => hl x (List.mem_cons_of_mem _ hx)) c hc

/-- C1: amended.  `CacheKey::new` is deterministic; the key is always
exactly 32 lowercase hexadecimal characters; two translator names with
the same lowercasing (in particular, names differing only in letter
case) give equal keys; and changing any single input changes the
combined pre-hash string that is fed to MD5 (the page slot through
decimal-rendering injectivity, the translator slot up to lowercasing).
Sensitivity of the key itself fails: MD5 maps infinitely many distinct
inputs onto 16-byte digests. -/
theorem cacheKey_new_spec :
    (∀ d p t tr sl tl r g b,
      CacheKey.new d p t tr sl tl r g b = CacheKey.new d p t tr sl tl r g b)
    ∧ (∀ d p t tr sl tl r g b,
        (CacheKey.new d p t tr sl tl r g b).length = 32
        ∧ ∀ c ∈ CacheKey.new d p t tr sl tl r g b, isLowerHexDigit c)
    ∧ (∀ d p t tr1 tr2 sl tl r g b,
        rustToLowercase tr1 = rustToLowercase tr2 →
        CacheKey.new d p t tr1 sl tl r g b
          = CacheKey.new d p t tr2 sl tl r g b)
    ∧ (∀ d1 d2 p t tr sl tl r g b,
        cacheCombined d1 p t tr sl tl r g b
          = cacheCombined d2 p t tr sl tl r g b → d1 = d2)
    ∧ (∀ d p1 p2 t tr sl tl r g b,
        cacheCombined d p1 t tr sl tl r g b
          = cacheCombined d p2 t tr sl tl r g b → p1 = p2)
    ∧ (∀ d p t1 t2 tr sl tl r g b,
        cacheCombined d p t1 tr sl tl r g b
          = cacheCombined d p t2 tr sl tl r g b → t1 = t2)
    ∧ (∀ d p t tr1 tr2 sl tl r g b,
        cacheCombined d p t tr1 sl tl r g b
          = cacheCombined d p t tr2 sl tl r g b →
        rustToLowercase tr1 = rustToLowercase tr2)
    ∧ (∀ d p t tr sl1 sl2 tl r g b,
        cacheCombined d p t tr sl1 tl r g b
          = cacheCombined d p t tr sl2 tl r g b → sl1 = sl2)
    ∧ (∀ d p t tr sl tl1 tl2 r g b,
        cacheCombined d p t tr sl tl1 r g b
          = cacheCombined d p t tr sl tl2 r g b → tl1 = tl2)
    ∧ (∀ d p t tr sl tl r1 r2 g b,
        cacheCombined d p t tr sl tl r1 g b
          = cacheCombined d p t tr sl tl r2 g b → r1 = r2)
    ∧ (∀ d p t tr sl tl r g1 g2 b,
        cacheCombined d p t tr sl tl r g1 b
          = cacheCombined d p t tr sl tl r g2 b → g1 = g2)
    ∧ (∀ d p t tr sl tl r g b1 b2,
        cacheCombined d p t tr sl tl r g b1
          = cacheCombined d p t tr sl tl r g b2 → b1 = b2) := by
  refine ⟨fun _ _ _ _ _ _ _ _ _ => rfl, ?_, ?_, ?_, ?_, ?_, ?_, ?_, ?_,
    ?_, ?_, ?_⟩
  · intro d p t tr sl tl r g b
    constructor
    · show (bytesHex _).length = 32
      rw [bytesHex_length, md5Compute_length]
    · intro c hc
      exact bytesHex_lower _ (md5Compute_lt _) c hc
  · intro d p t tr1 tr2 sl tl r g b h
    unfold CacheKey.new cacheCombined
    rw [h]
  · intro d1 d2 p t tr sl tl r g b h
    unfold cacheCombined at h
    exact List.append_cancel_right h
  · intro d p1 p2 t tr sl tl r g b h
    unfold cacheCombined at h
    iterate 2 replace h := List.append_cancel_left h
    exact natDec_inj (List.append_cancel_right h)
  · intro d p t1 t2 tr sl tl r g b h
    unfold cacheCombined at h
    iterate 4 replace h := List.append_cancel_left h
    exact List.append_cancel_right h
  · intro d p t tr1 tr2 sl tl r g b h
    unfold cacheCombined at h
    iterate 6 replace h := List.append_cancel_left h
    exact List.append_cancel_right h
  · intro d p t tr sl1 sl2 tl r g b h
    unfold cacheCombined at h
    iterate 8 replace h := List.append_cancel_left h
    cases sl1
    cases sl2
    simp only [Lang.mk.injEq]
    exact List.append_cancel_right h
  · intro d p t tr sl tl1 tl2 r g b h
    unfold cacheCombined at h
    iterate 10 replace h := List.append_cancel_left h
    cases tl1
    cases tl2
    simp only [Lang.mk.injEq]
    exact List.append_cancel_right h
  · intro d p t tr sl tl r1 r2 g b h
    unfold cacheCombined at h
    iterate 12 replace h := List.append_cancel_left h
    exact List.append_cancel_right h
  · intro d p t tr sl tl r g1 g2 b h
    unfold cacheCombined at h
    iterate 14 replace h := List.append_cancel_left h
    exact List.append_cancel_right h
  · intro d p t tr sl tl r g b1 b2 h
    unfold cacheCombined at h
    iterate 16 replace h := List.append_cancel_left h
    exact h

theorem cacheKey_new_spec_witness :
    CacheKey.new "doc".toList 0 "Hello".toList "Google".toList
        ⟨"fr".toList⟩ ⟨"en".toList⟩ "0".toList "0".toList "0".toList
      = CacheKey.new "doc".toList 0 "Hello".toList "GOOGLE".toList
        ⟨"fr".toList⟩ ⟨"en".toList⟩ "0".toList "0".toList "0".toList
    ∧ (5 : Nat) = 5
    ∧ "x".toList = "x".toList :=
  ⟨cacheKey_new_spec.2.2.1 "doc".toList 0 "Hello".toList "Google".toList
      "GOOGLE".toList ⟨"fr".toList⟩ ⟨"en".toList⟩ "0".toList "0".toList
      "0".toList (by decide),
   cacheKey_new_spec.2.2.2.2.1 "doc".toList 5 5 "Hello".toList
      "google".toList ⟨"fr".toList⟩ ⟨"en".toList⟩ "0".toList "0".toList
      "0".toList rfl,
   cacheKey_new_spec.2.2.2.2.2.1 "doc".toList 0 "x".toList "x".toList
      "google".toList ⟨"fr".toList⟩ ⟨"en".toList⟩ "0".toList "0".toList
      "0".toList rfl⟩

/-- C1 counterexample: "changing any single one of these inputs changes
the key" is false.  Keys are 16-byte MD5 digests, so infinitely many
document ids map into finitely many keys: two distinct document ids
share a key, all other inputs held fixed. -/
theorem cacheKey_new_collision :
    ∃ d1 d2 : List Char, d1 ≠ d2
      ∧ CacheKey.new d1 0 [] [] ⟨[]⟩ ⟨[]⟩ [] [] []
        = CacheKey.new d2 0 [] [] ⟨[]⟩ ⟨[]⟩ [] [] [] := by
  obtain ⟨n1, _, n2, _, hne, heq⟩ :=
    Finset.exists_ne_map_eq_of_card_lt_of_maps_to
      (show (Finset.range (256 ^ 16)).card
          < (Finset.range (256 ^ 16 + 1)).card by simp)
      (fun a (_ : a ∈ Finset.range (256 ^ 16 + 1)) =>
        Finset.mem_range.mpr (md5Val_lt (strBytes (cacheCombined
          (List.replicate a 'a') 0 [] [] ⟨[]⟩ ⟨[]⟩ [] [] []))))
  refine ⟨List.replicate n1 'a', List.replicate n2 'a', ?_, ?_⟩
  · intro hrep
    apply hne
    have := congrArg List.length hrep
    simpa using this
  · have hm := bytesVal_inj _ _
      (by rw [md5Compute_length, md5Compute_length])
      (md5Compute_lt _) (md5Compute_lt _) heq
    unfold CacheKey.new
    exact congrArg bytesHex hm

end PdfTranslator
